import Mathlib

/-!
Verification of the TdarkChess peer-to-peer chess application
(`src/chess_play.py`) against its design specification.

The application is a thin state machine over the python-chess rules
engine.  We shallowly embed:

* the rules-engine primitives the program consumes
  (`chess.Move.from_uci`, `Board.is_legal`, `Board.push`,
  `Board.is_check`, `Board.is_checkmate`, `Board.king`, `Board.fen`,
  `chess.Board(fen=...)`, `chess.Board.from_chess960_pos`), modelled
  from the semantics of standard chess as exposed by python-chess
  (squares are numbered 0..63 with a1 = 0, h8 = 63; colors are `Bool`
  with `true` = White; piece kinds are numbered pawn 1, knight 2,
  bishop 3, rook 4, queen 5, king 6, as in python-chess);
* the program state of `MainWindow` relevant to the move/turn logic
  (`chessboard`, `lastMove`, `check`, `lastReceived`, `isMyMove`, the
  checkmate popup, and a counter of rendering-refresh signals), and the
  operations `performMove`, the move branch of `mousePressEvent`, one
  iteration of `_socketReader`, and the FEN bootstrap of
  `connectNetwork`.

The program runs on Python 2, where `str` is a byte string; every
textual value (UCI move tokens, FEN strings, popup texts) is therefore
modelled as a `List Nat` of byte values.  Python exceptions
(`ValueError` from `chess.Move.from_uci`, `TypeError` from
`chess.Move.from_uci(None)`) are modelled by `Option`: a `none` result
of an operation means the Python code raises instead of returning.
-/

set_option autoImplicit false

namespace TdarkChess

/-- Colors follow python-chess: `true` is White, `false` is Black. -/
abbrev Color := Bool

/-- A piece: its color and its kind (pawn 1, knight 2, bishop 3, rook 4,
queen 5, king 6, the python-chess numbering). -/
abbrev Piece := Color × Nat

/-- `chess.Move`: origin square, destination square, optional promotion
piece kind.  python-chess only ever constructs moves whose squares lie
in 0..63 (`Move.from_uci` validates them); the null move is
`Move(0, 0)`. -/
structure Move where
  from_square : Nat
  to_square : Nat
  promotion : Option Nat
deriving DecidableEq

/-- File (column) of a square, 0..7. -/
def square_file (s : Nat) : Nat := s % 8

/-- Rank (row) of a square, 0..7. -/
def square_rank (s : Nat) : Nat := s / 8

/-- `SQUARE_NAMES.index` applied to a two-byte square name: byte values
97..104 are the files a..h, 49..56 the ranks 1..8. -/
def parse_square : List Nat → Option Nat
  | [f, r] =>
    if 97 ≤ f ∧ f ≤ 104 ∧ 49 ≤ r ∧ r ≤ 56 then some ((r - 49) * 8 + (f - 97))
    else none
  | _ => none

/-- The two-byte name of a square (inverse of `parse_square` on 0..63). -/
def square_name (s : Nat) : List Nat := [97 + s % 8, 49 + s / 8]

/-- `PIECE_SYMBOLS.index` for a promotion letter byte:
p 112, n 110, b 98, r 114, q 113, k 107. -/
def piece_symbol_index (c : Nat) : Option Nat :=
  if c = 112 then some 1
  else if c = 110 then some 2
  else if c = 98 then some 3
  else if c = 114 then some 4
  else if c = 113 then some 5
  else if c = 107 then some 6
  else none

/-- The lower-case symbol byte of a piece kind. -/
def piece_symbol (p : Nat) : Nat :=
  if p = 1 then 112
  else if p = 2 then 110
  else if p = 3 then 98
  else if p = 4 then 114
  else if p = 5 then 113
  else 107

/-- `chess.Move.from_uci`: `"0000"` is the null move; otherwise a
4-byte token is origin+destination, a 5-byte token adds a promotion
letter; anything else raises `ValueError` (modelled as `none`). -/
def Move.from_uci (uci : List Nat) : Option Move :=
  if uci = [48, 48, 48, 48] then some ⟨0, 0, none⟩
  else
    match uci with
    | [a, b, c, d] =>
      match parse_square [a, b], parse_square [c, d] with
      | some f, some t => some ⟨f, t, none⟩
      | _, _ => none
    | [a, b, c, d, e] =>
      match piece_symbol_index e, parse_square [a, b], parse_square [c, d] with
      | some pr, some f, some t => some ⟨f, t, some pr⟩
      | _, _, _ => none
    | _ => none

/-- `chess.Move.uci`: the textual rendering of a move (the encoder of
the move codec; the null move renders as `"0000"`). -/
def Move.uci (m : Move) : List Nat :=
  match m.promotion with
  | some pr => square_name m.from_square ++ square_name m.to_square ++ [piece_symbol pr]
  | none =>
    if m.from_square = 0 ∧ m.to_square = 0 then [48, 48, 48, 48]
    else square_name m.from_square ++ square_name m.to_square

/-- `chess.Board`: full position state.  `board` lists the contents of
squares 0..63; `castling_rights` lists the squares of rooks that retain
castling rights (python-chess stores them as a bitboard of rook
squares). -/
structure Position where
  board : List (Option Piece)
  turn : Color
  castling_rights : List Nat
  ep_square : Option Nat
  halfmove_clock : Nat
  fullmove_number : Nat
deriving DecidableEq

/-- Contents of a square. -/
def piece_at (p : Position) (s : Nat) : Option Piece := p.board.getD s none

/-- Kind of the piece on a square, of either color. -/
def kind_at (p : Position) (s : Nat) : Option Nat := (piece_at p s).map Prod.snd

/-- Single-step target squares from `s` reachable by the given
(file, rank) deltas, staying on the board. -/
def step_targets (s : Nat) (deltas : List (Int × Int)) : List Nat :=
  deltas.filterMap fun d =>
    let f : Int := (square_file s : Int) + d.1
    let r : Int := (square_rank s : Int) + d.2
    if 0 ≤ f ∧ f ≤ 7 ∧ 0 ≤ r ∧ r ≤ 7 then some (r * 8 + f).toNat else none

def knight_deltas : List (Int × Int) :=
  [(1, 2), (2, 1), (2, -1), (1, -2), (-1, -2), (-2, -1), (-2, 1), (-1, 2)]

def king_deltas : List (Int × Int) :=
  [(0, 1), (1, 1), (1, 0), (1, -1), (0, -1), (-1, -1), (-1, 0), (-1, 1)]

def bishop_dirs : List (Int × Int) := [(1, 1), (1, -1), (-1, 1), (-1, -1)]

def rook_dirs : List (Int × Int) := [(0, 1), (0, -1), (1, 0), (-1, 0)]

/-- Walk a sliding-piece ray in direction `d` from (file `f`, rank `r`):
collect empty squares and the first occupied square, stopping there. -/
def ray_go (p : Position) (d : Int × Int) (f r : Int) : Nat → List Nat
  | 0 => []
  | Nat.succ fuel =>
    let f2 := f + d.1
    let r2 := r + d.2
    if 0 ≤ f2 ∧ f2 ≤ 7 ∧ 0 ≤ r2 ∧ r2 ≤ 7 then
      let t := (r2 * 8 + f2).toNat
      match piece_at p t with
      | none => t :: ray_go p d f2 r2 fuel
      | some _ => [t]
    else []

/-- All squares attacked along one ray from square `s`. -/
def ray (p : Position) (s : Nat) (d : Int × Int) : List Nat :=
  ray_go p d (square_file s) (square_rank s) 7

/-- `Board.attacks_mask(s)`: squares attacked by the piece on `s`
(pawns attack diagonally; sliders stop at blockers). -/
def attacks_mask (p : Position) (s : Nat) : List Nat :=
  match piece_at p s with
  | none => []
  | some (c, k) =>
    if k = 1 then step_targets s (if c then [(-1, 1), (1, 1)] else [(-1, -1), (1, -1)])
    else if k = 2 then step_targets s knight_deltas
    else if k = 3 then bishop_dirs.flatMap (ray p s)
    else if k = 4 then rook_dirs.flatMap (ray p s)
    else if k = 5 then (bishop_dirs ++ rook_dirs).flatMap (ray p s)
    else if k = 6 then step_targets s king_deltas
    else []

/-- `Board.attackers_mask(c, sq)` is nonempty: some piece of color `c`
attacks square `sq` (that is, `sq` lies in that piece's
`attacks_mask`).  Computed by scanning outward from `sq`: knight and
king attackers sit a single step away, pawn attackers one diagonal step
on the side they advance from, and sliding attackers are the first
occupied square along each ray when it holds the right piece. -/
def attackers_exist (p : Position) (c : Color) (sq : Nat) : Bool :=
  (step_targets sq knight_deltas).any (fun s => piece_at p s == some (c, 2)) ||
  (step_targets sq king_deltas).any (fun s => piece_at p s == some (c, 6)) ||
  (step_targets sq (if c then [(-1, -1), (1, -1)] else [(-1, 1), (1, 1)])).any
    (fun s => piece_at p s == some (c, 1)) ||
  (rook_dirs.any fun d =>
    match (ray p sq d).getLast? with
    | some s => piece_at p s == some (c, 4) || piece_at p s == some (c, 5)
    | none => false) ||
  (bishop_dirs.any fun d =>
    match (ray p sq d).getLast? with
    | some s => piece_at p s == some (c, 3) || piece_at p s == some (c, 5)
    | none => false)

/-- `Board.king(color)`: the square of that color's king (python-chess
takes the most significant bit of the king bitboard), or `none`. -/
def king_square (p : Position) (c : Color) : Option Nat :=
  ((List.range 64).filter fun s => decide (piece_at p s = some (c, 6))).getLast?

/-- `Board.is_check()`: the side to move is in check. -/
def Position.is_check (p : Position) : Bool :=
  match king_square p p.turn with
  | none => false
  | some k => attackers_exist p (!p.turn) k

/-- `Board._to_chess960`: convert the standard castling encoding
(king e1 to g1/c1, e8 to g8/c8) into the internal king-takes-rook
encoding used by `push`.  Square numbers: a1 0, c1 2, e1 4, g1 6, h1 7,
a8 56, c8 58, e8 60, g8 62, h8 63. -/
def to_chess960 (p : Position) (m : Move) : Move :=
  if m.from_square = 4 ∧ kind_at p 4 = some 6 then
    if m.to_square = 6 ∧ kind_at p 6 ≠ some 4 then ⟨4, 7, none⟩
    else if m.to_square = 2 ∧ kind_at p 2 ≠ some 4 then ⟨4, 0, none⟩
    else m
  else if m.from_square = 60 ∧ kind_at p 60 = some 6 then
    if m.to_square = 62 ∧ kind_at p 62 ≠ some 4 then ⟨60, 63, none⟩
    else if m.to_square = 58 ∧ kind_at p 58 ≠ some 4 then ⟨60, 59, none⟩
    else m
  else m

/-- `Board.push(move)`: apply a move to the position, mirroring the
python-chess update order: reset the en-passant square, advance the
clocks, zero the halfmove clock on pawn moves and captures, strip
castling rights touched by the move, handle double pushes, en-passant
captures, promotions and castling, and flip the side to move. -/
def Position.push (p : Position) (m0 : Move) : Position :=
  let m := to_chess960 p m0
  let epOld := p.ep_square
  let half1 := p.halfmove_clock + 1
  let full1 := if p.turn then p.fullmove_number else p.fullmove_number + 1
  if m.from_square = 0 ∧ m.to_square = 0 ∧ m.promotion = none then
    -- a null move only swaps turns
    { p with turn := !p.turn, ep_square := none,
             halfmove_clock := half1, fullmove_number := full1 }
  else
    let capturedAtTo := piece_at p m.to_square
    -- Board.is_zeroing: a pawn is moving or an enemy piece sits on the target
    let zeroing : Bool :=
      (kind_at p m.from_square == some 1) || capturedAtTo.any fun pc => pc.1 == !p.turn
    let half2 := if zeroing then 0 else half1
    -- lift the piece off its origin square
    let b1 := p.board.set m.from_square none
    -- castling rights touched by the move disappear
    let cr1 := p.castling_rights.filter fun s =>
      decide (s ≠ m.from_square ∧ s ≠ m.to_square)
    let cr2 :=
      if kind_at p m.from_square = some 6 then
        -- a king move drops all rights of the mover
        if p.turn then cr1.filter fun s => decide (8 ≤ s)
        else cr1.filter fun s => decide (s < 56)
      else if (capturedAtTo.map Prod.snd) = some 6 then
        -- capturing a king on the far backrank drops that side's rights
        if p.turn ∧ square_rank m.to_square = 7 then cr1.filter fun s => decide (s < 56)
        else if p.turn = false ∧ square_rank m.to_square = 0 then
          cr1.filter fun s => decide (8 ≤ s)
        else cr1
      else cr1
    -- pawn specials: record a new en-passant square on double pushes,
    -- remove the captured pawn on en-passant captures
    let isPawn := kind_at p m.from_square = some 1
    let epNew : Option Nat :=
      if isPawn ∧ p.turn ∧ m.to_square = m.from_square + 16 ∧ square_rank m.from_square = 1 then
        some (m.from_square + 8)
      else if isPawn ∧ p.turn = false ∧ m.from_square = m.to_square + 16 ∧
          square_rank m.from_square = 6 then
        some (m.from_square - 8)
      else none
    let isEpCapture :=
      isPawn ∧ epOld = some m.to_square ∧ capturedAtTo = none ∧
        (m.to_square + 9 = m.from_square ∨ m.to_square + 7 = m.from_square ∨
         m.to_square = m.from_square + 7 ∨ m.to_square = m.from_square + 9)
    let b2 :=
      if isEpCapture then
        b1.set (if p.turn then m.to_square - 8 else m.to_square + 8) none
      else b1
    -- the piece that lands on the target (promotions change the kind)
    let placedKind : Option Nat :=
      match m.promotion with
      | some pr => some pr
      | none => kind_at p m.from_square
    -- castling: in the internal encoding the king lands on its own rook
    let castling : Bool :=
      (placedKind == some 6) && capturedAtTo.any fun pc => pc.1 == p.turn
    let b3 :=
      if castling then
        let b := (b2.set m.to_square none)
        if square_file m.to_square < square_file m.from_square then
          -- a-side: king to the c-file, rook to the d-file
          (b.set (if p.turn then 2 else 58) (some (p.turn, 6))).set
            (if p.turn then 3 else 59) (some (p.turn, 4))
        else
          -- h-side: king to the g-file, rook to the f-file
          (b.set (if p.turn then 6 else 62) (some (p.turn, 6))).set
            (if p.turn then 5 else 61) (some (p.turn, 4))
      else
        match placedKind with
        | some k => b2.set m.to_square (some (p.turn, k))
        | none => b2.set m.to_square none
    { board := b3, turn := !p.turn, castling_rights := cr2, ep_square := epNew,
      halfmove_clock := half2, fullmove_number := full1 }

/-- Legality of a castling move given in the standard two-squares-king
encoding, as decided by python-chess `generate_castling_moves`: the
king and the rights-holding rook stand on their home squares, the
squares between them (and the squares the king and rook move to) are
empty, and the king neither starts on, passes through nor lands on an
attacked square. -/
def castling_ok (p : Position) (m : Move) : Bool :=
  let spec :=
    if p.turn then
      if m.to_square = 6 then (4, 7, [5, 6], [4, 5, 6])
      else (4, 0, [1, 2, 3], [4, 3, 2])
    else
      if m.to_square = 62 then (60, 63, [61, 62], [60, 61, 62])
      else (60, 56, [57, 58, 59], [60, 59, 58])
  match spec with
  | (ksq, rsq, empties, kpath) =>
    decide (m.from_square = ksq ∧ m.promotion = none ∧
      piece_at p ksq = some (p.turn, 6) ∧ piece_at p rsq = some (p.turn, 4) ∧
      rsq ∈ p.castling_rights ∧ (∀ s ∈ empties, piece_at p s = none) ∧
      (∀ s ∈ kpath, attackers_exist p (!p.turn) s = false))

/-- Pawn-move geometry from `generate_pseudo_legal_moves`: single push
to an empty square, double push from the home rank over empty squares,
or a diagonal capture of an enemy piece or of the en-passant square. -/
def pawn_targets_ok (p : Position) (m : Move) (c : Color) : Bool :=
  let f := m.from_square
  let t := m.to_square
  let isEmpty : Nat → Bool := fun s => (piece_at p s).isNone
  let diag := (step_targets f (if c then [(-1, 1), (1, 1)] else [(-1, -1), (1, -1)])).contains t
  let single :=
    if c then (t == f + 8) && isEmpty t
    else decide (8 ≤ f) && (t + 8 == f) && isEmpty t
  let dbl :=
    if c then
      (square_rank f == 1) && (t == f + 16) && isEmpty (f + 8) && isEmpty t
    else
      (square_rank f == 6) && (t + 16 == f) && isEmpty (f - 8) && isEmpty t
  let capture :=
    diag &&
      (if isEmpty t then p.ep_square == some t
       else (piece_at p t).any fun pc => pc.1 == !c)
  single || dbl || capture

/-- Promotion field demanded by the pawn-move generator: promotions to
queen, rook, bishop or knight exactly on the final rank, no promotion
elsewhere. -/
def pawn_promo_ok (m : Move) : Bool :=
  if square_rank m.to_square = 7 ∨ square_rank m.to_square = 0 then
    decide (m.promotion = some 5 ∨ m.promotion = some 4 ∨
      m.promotion = some 3 ∨ m.promotion = some 2)
  else decide (m.promotion = none)

/-- `Board.is_pseudo_legal(move)`.  python-chess only ever receives
moves whose squares lie in 0..63 and whose promotion field, when
present, is a piece kind 1..6 (both enforced by `Move.from_uci`, the
only move constructor this program uses); the two leading guards
encode that domain.  The null move is never
pseudo-legal; a promotion field requires a pawn moving to the mover's
final rank; castling is accepted via the castling generator; otherwise
the destination must not hold an own piece and must be reachable by the
moving piece. -/
def Position.is_pseudo_legal (p : Position) (m : Move) : Bool :=
  if 64 ≤ m.from_square ∨ 64 ≤ m.to_square then false
  else if m.promotion.any fun pr => decide (pr = 0 ∨ 7 ≤ pr) then false
  else if m.from_square = 0 ∧ m.to_square = 0 ∧ m.promotion = none then false
  else
    match piece_at p m.from_square with
    | none => false
    | some (c, k) =>
      if c ≠ p.turn then false
      else if m.promotion.isSome ∧
          (k ≠ 1 ∨ (if p.turn then square_rank m.to_square ≠ 7
                    else square_rank m.to_square ≠ 0)) then false
      else if k = 6 ∧ castling_ok p m = true then true
      else if (piece_at p m.to_square).any (fun pc => pc.1 == p.turn) then false
      else if k = 1 then pawn_targets_ok p m c && pawn_promo_ok m
      else (attacks_mask p m.from_square).contains m.to_square

/-- `Board.is_into_check(move)`: after playing the move, the mover's
king is attacked.  python-chess computes this with evasion masks and
pinned-piece masks; semantically it is an attack test on the pushed
position. -/
def Position.is_into_check (p : Position) (m : Move) : Bool :=
  let p2 := p.push m
  match king_square p2 p.turn with
  | none => false
  | some k => attackers_exist p2 (!p.turn) k

/-- `Board.is_legal(move)`: pseudo-legal and not into check (the board
is never in a variant-end state for the standard game). -/
def Position.is_legal (p : Position) (m : Move) : Bool :=
  p.is_pseudo_legal m && !(p.is_into_check m)

/-- Promotion kinds a pawn move from `f` to `t` could carry, used to
enumerate candidate legal moves. -/
def candidate_promos (p : Position) (f t : Nat) : List (Option Nat) :=
  match piece_at p f with
  | some (_, 1) =>
    if square_rank t = 7 ∨ square_rank t = 0 then [some 5, some 4, some 3, some 2]
    else [none]
  | _ => [none]

/-- Candidate destination squares for the piece on `f`, mirroring the
move generator: a pawn pushes one or two squares or captures
diagonally, a king additionally tries the castling destinations, every
other piece moves within its attack mask.  `is_legal` then filters; no
legal move falls outside these candidates. -/
def candidate_targets (p : Position) (f : Nat) : List Nat :=
  match piece_at p f with
  | none => []
  | some (c, k) =>
    if k = 1 then
      (if c then [f + 8, f + 16] else [f - 8, f - 16]) ++
        step_targets f (if c then [(-1, 1), (1, 1)] else [(-1, -1), (1, -1)])
    else if k = 6 then attacks_mask p f ++ [2, 6, 58, 62]
    else attacks_mask p f

/-- Some legal move exists for the side to move (the test behind
`any(self.generate_legal_moves())`). -/
def Position.has_legal_move (p : Position) : Bool :=
  (List.range 64).any fun f =>
    (candidate_targets p f).any fun t =>
      (candidate_promos p f t).any fun pr => p.is_legal ⟨f, t, pr⟩

/-- `Board.is_checkmate()`: in check with no legal move. -/
def Position.is_checkmate (p : Position) : Bool :=
  p.is_check && !p.has_legal_move

/-- The standard chess starting backrank, as piece kinds. -/
def backrank_kinds : List Nat := [4, 2, 3, 5, 6, 3, 2, 4]

/-- The files (ascending) of the rooks in a backrank arrangement. -/
def rook_files (kinds : List Nat) : List Nat :=
  (List.range 8).filter fun f => kinds.getD f 0 == 4

/-- The files (ascending) of the kings in a backrank arrangement. -/
def king_files (kinds : List Nat) : List Nat :=
  (List.range 8).filter fun f => kinds.getD f 0 == 6

/-- Well-formedness of a starting backrank: eight piece kinds among
knight..king, exactly one king and exactly two rooks, with the king
strictly between the rooks.  Every Scharnagl backrank satisfies this
(proved below by enumeration). -/
def good_backrank (kinds : List Nat) : Bool :=
  (kinds.length == 8) && kinds.all (fun k => decide (2 ≤ k) && decide (k ≤ 6)) &&
    (match king_files kinds, rook_files kinds with
     | [kf], [r1, r2] => decide (r1 < kf) && decide (kf < r2)
     | _, _ => false)

/-- The castling-rights squares of a starting position with the given
backrank: all four rook squares (python-chess sets
`castling_rights = rooks`, a bitboard; the list is ordered h-side rook
first, per color, matching the order in which the K, Q, k, q flags of
the position's own FEN name them). -/
def start_rights (kinds : List Nat) : List Nat :=
  let rf := (rook_files kinds).reverse
  rf ++ rf.map (56 + ·)

/-- The starting position whose backrank arrangement (same for both
colors) is given by `kinds`: pieces on ranks 1 and 8, pawns on ranks 2
and 7, White to move, castling rights on all rooks. -/
def start_of (kinds : List Nat) : Position :=
  { board :=
      (kinds.map fun k => some (true, k)) ++
        List.replicate 8 (some (true, 1)) ++ List.replicate 32 none ++
        List.replicate 8 (some (false, 1)) ++
        (kinds.map fun k => some (false, k)),
    turn := true, castling_rights := start_rights kinds, ep_square := none,
    halfmove_clock := 0, fullmove_number := 1 }

/-- `chess.Board()`: the standard starting position. -/
def standard_position : Position := start_of backrank_kinds

/-! ## FEN serialization (`Board.fen(shredder=False)`) and parsing
(`chess.Board(fen=...)`) -/

/-- FEN letter byte of a piece: upper case for White. -/
def piece_fen_byte (pc : Piece) : Nat :=
  if pc.1 then piece_symbol pc.2 - 32 else piece_symbol pc.2

/-- Decimal digit bytes of a natural number. -/
def nat_bytes (n : Nat) : List Nat := (Nat.toDigits 10 n).map Char.toNat

/-- One step of the run-length encoding of a placement rank: an empty
square extends the pending run, a piece flushes the run digit and
emits its letter. -/
def rank_fen_step (acc : List Nat × Nat) (cell : Option Piece) : List Nat × Nat :=
  match cell with
  | none => (acc.1, acc.2 + 1)
  | some pc =>
    (acc.1 ++ (if acc.2 = 0 then [] else [48 + acc.2]) ++ [piece_fen_byte pc], 0)

/-- One rank of the FEN placement field: pieces as letters, runs of
empty squares as a digit. -/
def rank_fen (cells : List (Option Piece)) : List Nat :=
  let res := cells.foldl rank_fen_step ([], 0)
  res.1 ++ (if res.2 = 0 then [] else [48 + res.2])

/-- Join byte strings with the byte of the slash character. -/
def join_slash : List (List Nat) → List Nat
  | [] => []
  | [r] => r
  | r :: rs => r ++ 47 :: join_slash rs

/-- The FEN placement field: ranks 8 down to 1 joined by the byte of
the slash character. -/
def placement_fen (p : Position) : List Nat :=
  join_slash (((List.range 8).map fun i => rank_fen ((p.board.drop ((7 - i) * 8)).take 8)))

/-- `Board.clean_castling_rights()` restricted to one color: the
rights-holding squares that really hold an own rook on the own
backrank, listed in descending square order, and only while the own
king stands on that backrank.  (python-chess additionally collapses
multiple rooks on one side of the king to the outermost one; every
position this development serializes has at most one rights-holding
rook on each side of the king, where the two computations agree.) -/
def clean_rights_desc (p : Position) (c : Color) : List Nat :=
  let br := if c then 0 else 7
  if (List.range 8).any (fun f => decide (piece_at p (br * 8 + f) = some (c, 6))) then
    ((List.range 8).filterMap fun f =>
      let s := br * 8 + f
      if piece_at p s = some (c, 4) ∧ s ∈ p.castling_rights then some s else none).reverse
  else []

/-- `Board.castling_xfen()` for one color: for each rights-holding rook
(h-side first), write k/q when the rook is the outermost rook on its
side of the king, its file letter otherwise; White in upper case. -/
def castling_xfen_color (p : Position) (c : Color) : List Nat :=
  let br := if c then 0 else 7
  let kingFile :=
    match king_square p c with
    | some k => square_file k
    | none => 8
  (clean_rights_desc p c).map fun s =>
    let rf := square_file s
    let aSide := decide (rf < kingFile)
    let otherSameSide :=
      (List.range 8).any fun f =>
        f ≠ rf && (piece_at p (br * 8 + f)).any (fun pc => pc == (c, 4)) &&
          (decide (f < rf) == aSide)
    let ch := if otherSameSide then 97 + rf else if aSide then 113 else 107
    if c then ch - 32 else ch

/-- The FEN castling field (X-FEN). -/
def castling_fen (p : Position) : List Nat :=
  match castling_xfen_color p true ++ castling_xfen_color p false with
  | [] => [45]
  | l => l

/-- `Board.has_legal_en_passant()`: the en-passant square is set and
some legal en-passant capture exists. -/
def has_legal_ep (p : Position) : Bool :=
  match p.ep_square with
  | none => false
  | some eps =>
    (List.range 64).any fun f =>
      decide (piece_at p f = some (p.turn, 1)) &&
        (step_targets f (if p.turn then [(-1, 1), (1, 1)] else [(-1, -1), (1, -1)])).contains
          eps &&
        p.is_legal ⟨f, eps, none⟩

/-- The FEN en-passant field with the python-chess default
`en_passant="legal"`: the square is written only when a legal
en-passant capture exists. -/
def ep_fen (p : Position) : List Nat :=
  match p.ep_square with
  | none => [45]
  | some eps => if has_legal_ep p then square_name eps else [45]

/-- `Board.fen(shredder=False)`: placement, side to move, castling,
en-passant, halfmove clock and fullmove number separated by space
bytes. -/
def Position.fen (p : Position) : List Nat :=
  placement_fen p ++ [32] ++ [if p.turn then 119 else 98] ++ [32] ++
    castling_fen p ++ [32] ++ ep_fen p ++ [32] ++
    nat_bytes p.halfmove_clock ++ [32] ++ nat_bytes p.fullmove_number

/-- Split a byte string on a separator byte. -/
def split_on (sep : Nat) (s : List Nat) : List (List Nat) :=
  s.foldr
    (fun b acc =>
      match acc with
      | [] => if b = sep then [[], []] else [[b]]
      | cur :: rest => if b = sep then [] :: cur :: rest else (b :: cur) :: rest)
    [[]]

/-- One step of rank parsing: a digit expands to that many empty
squares, a letter to a piece whose color is its case. -/
def parse_rank_step (acc : Option (List (Option Piece))) (b : Nat) :
    Option (List (Option Piece)) :=
  match acc with
  | none => none
  | some cells =>
    if 49 ≤ b ∧ b ≤ 56 then some (cells ++ List.replicate (b - 48) none)
    else
      match piece_symbol_index (if 65 ≤ b ∧ b ≤ 90 then b + 32 else b) with
      | some k => some (cells ++ [some (decide (65 ≤ b ∧ b ≤ 90), k)])
      | none => none

/-- Parse one FEN placement rank into eight squares. -/
def parse_rank (bytes : List Nat) : Option (List (Option Piece)) :=
  match bytes.foldl parse_rank_step (some []) with
  | some cells => if cells.length = 8 then some cells else none
  | none => none

/-- Parse the FEN placement field: eight slash-separated ranks, given
from rank 8 down to rank 1. -/
def parse_placement (bytes : List Nat) : Option (List (Option Piece)) :=
  let ranks := split_on 47 bytes
  if ranks.length = 8 then
    (ranks.reverse.foldl
      (fun acc r =>
        match acc, parse_rank r with
        | some cells, some rank => some (cells ++ rank)
        | _, _ => none)
      (some []))
  else none

/-- Board-dependent part of `Board.set_castling_fen` for one flag byte:
K/k pick the outermost own rook right of the king (falling back to the
h-file corner), Q/q the outermost rook left of the king (falling back
to the a-file corner), an explicit file letter picks that file's
backrank square. -/
def castling_flag_square (b : List (Option Piece)) (flag : Nat) : Option Nat :=
  let isWhite := 65 ≤ flag ∧ flag ≤ 90
  let c : Color := decide isWhite
  let lower := if isWhite then flag + 32 else flag
  let br := if c then 0 else 7
  let rookFiles := (List.range 8).filter fun f =>
    (b.getD (br * 8 + f) none).any fun pc => pc == (c, 4)
  let kingFile := ((List.range 8).filter fun f =>
    (b.getD (br * 8 + f) none).any fun pc => pc == (c, 6)).getLast?
  if lower = 107 then
    -- k: the rightmost rook, when it stands right of the king
    match rookFiles.getLast?, kingFile with
    | some rf, some kf => some (br * 8 + (if kf < rf then rf else 7))
    | some rf, none => some (br * 8 + rf)
    | none, _ => some (br * 8 + 7)
  else if lower = 113 then
    -- q: the leftmost rook, when it stands left of the king
    match rookFiles.head?, kingFile with
    | some rf, some kf => some (br * 8 + (if rf < kf then rf else 0))
    | some rf, none => some (br * 8 + rf)
    | none, _ => some (br * 8)
  else if 97 ≤ lower ∧ lower ≤ 104 then some (br * 8 + (lower - 97))
  else none

/-- Parse the FEN castling field against a placed board. -/
def parse_castling (b : List (Option Piece)) (bytes : List Nat) : Option (List Nat) :=
  if bytes = [45] then some []
  else
    bytes.foldl
      (fun acc flag =>
        match acc, castling_flag_square b flag with
        | some l, some s => some (l ++ [s])
        | _, _ => none)
      (some [])

/-- Parse a decimal number field. -/
def parse_nat (bytes : List Nat) : Option Nat :=
  match bytes with
  | [] => none
  | _ =>
    bytes.foldl
      (fun acc b =>
        match acc with
        | some n => if 48 ≤ b ∧ b ≤ 57 then some (n * 10 + (b - 48)) else none
        | none => none)
      (some 0)

/-- `chess.Board(fen=...)` via `Board.set_fen`: split the string into
six fields and parse each (the `chess960` constructor flag does not
change how any of the fields are read); a `none` models the
`ValueError` python-chess raises on malformed FEN. -/
def board_from_fen (bytes : List Nat) : Option Position :=
  match split_on 32 bytes with
  | [pl, tn, ca, ep, hm, fm] =>
    match parse_placement pl with
    | none => none
    | some cells =>
      let turn :=
        if tn = [119] then some true else if tn = [98] then some false else none
      let epSq :=
        if ep = [45] then some none
        else match parse_square ep with
          | some s => some (some s)
          | none => none
      match turn, parse_castling cells ca, epSq, parse_nat hm, parse_nat fm with
      | some t, some cr, some e, some h, some f =>
        some { board := cells, turn := t, castling_rights := cr, ep_square := e,
               halfmove_clock := h, fullmove_number := f }
      | _, _, _, _, _ => none
  | _ => none

/-! ## `chess.Board.from_chess960_pos` -/

/-- The knight-position pair decoded from the Scharnagl number, as in
the search loop of `Board.set_chess960_pos`. -/
def knights_pair (nn : Nat) : Nat × Nat :=
  let cand : List (Nat × Nat) := ([0, 1, 2, 3] : List Nat).filterMap fun (n1 : Nat) =>
    let n2 : Int := (nn : Int) + (3 - (n1 : Int)) * (4 - (n1 : Int)) / 2 - 5
    if (n1 : Int) < n2 ∧ 1 ≤ n2 ∧ n2 ≤ 4 then some (n1, n2.toNat) else none
  cand.headD (3, nn - 5)

/-- The backrank files of the Scharnagl position `n`: bishops from
`n % 4` and `(n / 4) % 4`, the queen from `(n / 16) % 6` skipping the
bishop files, knights on the decoded pair of remaining files, then
rook, king, rook on the three files left over. -/
def c960_backrank (n : Nat) : List Nat :=
  let bw := n % 4
  let bb := (n / 4) % 4
  let q := (n / 16) % 6
  let nn := n / 96
  let bwF := bw * 2 + 1
  let bbF := bb * 2
  let q1 := if min bwF bbF ≤ q then q + 1 else q
  let qF := if max bwF bbF ≤ q1 then q1 + 1 else q1
  let free := (List.range 8).filter fun f => f ≠ bwF && f ≠ bbF && f ≠ qF
  let kp := knights_pair nn
  let kn1F := free.getD kp.1 0
  let kn2F := free.getD kp.2 0
  let rkr := free.filter fun f => f ≠ kn1F && f ≠ kn2F
  let kingF := rkr.getD 1 0
  (List.range 8).map fun f =>
    if f = bwF ∨ f = bbF then 3
    else if f = qF then 5
    else if f = kn1F ∨ f = kn2F then 2
    else if f = kingF then 6
    else 4

/-- `chess.Board.from_chess960_pos(n)`: the Chess960 starting position
with Scharnagl number `n`; castling rights sit on all four rooks. -/
def from_chess960_pos (n : Nat) : Position := start_of (c960_backrank n)

/-- The board `MainWindow.__init__` constructs on the host: a random
Chess960 start with `--c960`, the standard start otherwise. -/
def hostBoard (c960 : Bool) (n : Nat) : Position :=
  if c960 then from_chess960_pos n else standard_position

/-! ## The application state machine (`MainWindow` in `src/chess_play.py`) -/

/-- Byte string of the popup text shown when the side to move after the
mating move is White: the Python literal is the text
Checkmate! Black wins! -/
def blackWinsText : List Nat :=
  [67, 104, 101, 99, 107, 109, 97, 116, 101, 33, 32,
   66, 108, 97, 99, 107, 32, 119, 105, 110, 115, 33]

/-- Byte string of the popup text
Checkmate! White wins! -/
def whiteWinsText : List Nat :=
  [67, 104, 101, 99, 107, 109, 97, 116, 101, 33, 32,
   87, 104, 105, 116, 101, 32, 119, 105, 110, 115, 33]

/-- The fields of `MainWindow` that take part in the move / turn /
synchronization logic.  `lastReceived` holds the raw bytes of the last
socket read (`None` until the first read); `popup` holds the checkmate
popup text once one has been shown; `updates` counts the calls to
`self.update()`, the signal that tells the rendering collaborator to
refresh. -/
structure AppState where
  chessboard : Position
  lastMove : Option Move
  check : Option Nat
  lastReceived : Option (List Nat)
  isMyMove : Bool
  popup : Option (List Nat)
  updates : Nat
deriving DecidableEq

/-- The inner helper `_updateMoveOnboard` of `MainWindow.performMove`:
push the move, record it as the last move, recompute the checked-king
square, signal a rendering refresh, and on checkmate show the popup
naming the winner (the code branches on `self.chessboard.turn` after
the push: the side to move after the mating move is the loser).
Returns `True` together with the new state. -/
def updateMoveOnboard (st : AppState) (move : Move) : Bool × AppState :=
  let b2 := st.chessboard.push move
  let newCheck := if b2.is_check then king_square b2 b2.turn else none
  let newPopup :=
    if b2.is_checkmate then
      some (if b2.turn then blackWinsText else whiteWinsText)
    else st.popup
  (true,
   { st with chessboard := b2, lastMove := some move, check := newCheck,
             updates := st.updates + 1, popup := newPopup })

/-- `MainWindow.performMove(uci)`: decode the token; if the decoded
move is legal apply it; otherwise retry with a queen-promotion suffix
appended; if that is also illegal, re-decode `self.lastReceived` into
`self.lastMove` and return `False`.  A `none` result models an uncaught
Python exception: `ValueError` when a token fails to decode, or
`TypeError` when `lastReceived` is still `None` on the recovery
path. -/
def performMove (st : AppState) (uci : List Nat) : Option (Bool × AppState) :=
  match Move.from_uci uci with
  | none => none
  | some move =>
    if st.chessboard.is_legal move then some (updateMoveOnboard st move)
    else
      match Move.from_uci (uci ++ [113]) with
      | none => none
      | some move2 =>
        if st.chessboard.is_legal move2 then some (updateMoveOnboard st move2)
        else
          match st.lastReceived with
          | none => none
          | some raw =>
            match Move.from_uci raw with
            | none => none
            | some lm => some (false, { st with lastMove := some lm })

/-- The move-completion branch of `MainWindow.mousePressEvent`: it runs
only when `self.isMyMove` holds (the outer gate), calls `performMove`
with the locally assembled token, and on success clears `isMyMove` and
sends the token to the peer.  When `isMyMove` is `False` the click is
forwarded to `QWidget.mousePressEvent` and nothing changes. -/
def localMoveStep (st : AppState) (uci : List Nat) : Option AppState :=
  if st.isMyMove then
    match performMove st uci with
    | none => none
    | some (true, st2) => some { st2 with isMyMove := false }
    | some (false, st2) => some st2
  else some st

/-- One iteration of the `MainWindow._socketReader` loop: store the
received bytes in `self.lastReceived`; only when `isMyMove` is `False`
feed them to `performMove`, and on success set `isMyMove`.  A `none`
result models an exception escaping `performMove`, which kills the
reader thread. -/
def socketReaderStep (st : AppState) (data : List Nat) : Option AppState :=
  let st1 := { st with lastReceived := some data }
  if !st1.isMyMove then
    match performMove st1 data with
    | none => none
    | some (true, st2) => some { st2 with isMyMove := true }
    | some (false, st2) => some st2
  else some st1

/-- The `MainWindow.__init__` state of the host (no `--ip`: standard
board, `isMyMove = True`, nothing received yet). -/
def hostInitialState : AppState :=
  { chessboard := standard_position, lastMove := none, check := none,
    lastReceived := none, isMyMove := true, popup := none, updates := 0 }

/-- Replay a sequence of tokens through `performMove`, requiring each
to succeed (used to express the Fool's Mate scenario). -/
def replay (st : AppState) : List (List Nat) → Option AppState
  | [] => some st
  | t :: ts =>
    match performMove st t with
    | some (true, st2) => replay st2 ts
    | _ => none

/-! ## Concrete scenario positions and states -/

/-- A position with a white pawn on e7 about to promote: White king e1
(square 4), white pawn e7 (square 52), Black king a5 (square 32),
White to move. -/
def promoPosition : Position :=
  { board :=
      (((List.replicate 64 (none : Option Piece)).set 4 (some (true, 6))).set 52
        (some (true, 1))).set 32 (some (false, 6)),
    turn := true, castling_rights := [], ep_square := none,
    halfmove_clock := 0, fullmove_number := 1 }

/-- The application state sitting on `promoPosition` with the local
side to move. -/
def promoState : AppState :=
  { chessboard := promoPosition, lastMove := none, check := none,
    lastReceived := none, isMyMove := true, popup := none, updates := 0 }

/-- A position where White mates in one: white rook a7 (square 48),
white king g6 (square 46), black king h8 (square 63), White to move;
the rook move a7a8 delivers a back-rank mate. -/
def mateInOnePosition : Position :=
  { board :=
      (((List.replicate 64 (none : Option Piece)).set 48 (some (true, 4))).set 46
        (some (true, 6))).set 63 (some (false, 6)),
    turn := true, castling_rights := [], ep_square := none,
    halfmove_clock := 0, fullmove_number := 1 }

/-- The application state sitting on `mateInOnePosition`. -/
def mateInOneState : AppState :=
  { chessboard := mateInOnePosition, lastMove := none, check := none,
    lastReceived := none, isMyMove := true, popup := none, updates := 0 }

/-- The UCI byte tokens of the Fool's Mate sequence
f2f3, e7e5, g2g4, d8h4. -/
def foolsMateTokens : List (List Nat) :=
  [[102, 50, 102, 51], [101, 55, 101, 53], [103, 50, 103, 52], [100, 56, 104, 52]]

/-- The application state after replaying the Fool's Mate sequence on
the host's initial state. -/
def foolsFinal : AppState :=
  (updateMoveOnboard
    (updateMoveOnboard
      (updateMoveOnboard
        (updateMoveOnboard hostInitialState ⟨13, 21, none⟩).2
        ⟨52, 36, none⟩).2
      ⟨14, 30, none⟩).2
    ⟨59, 31, none⟩).2

/-! ## Helper lemmas about the shape of `performMove` results -/

/-- Every `performMove` call either raises, applies a move through
`_updateMoveOnboard`, or returns `False` having only replaced
`lastMove` by the re-decoded `lastReceived`. -/
theorem performMove_cases (st : AppState) (uci : List Nat) :
    performMove st uci = none ∨
    (∃ m, performMove st uci = some (updateMoveOnboard st m)) ∨
    (∃ lm, performMove st uci = some (false, { st with lastMove := some lm })) := by
  unfold performMove
  cases Move.from_uci uci with
  | none => exact Or.inl rfl
  | some m =>
    by_cases h1 : st.chessboard.is_legal m = true
    · exact Or.inr (Or.inl ⟨m, by simp [h1]⟩)
    · simp only [Bool.not_eq_true] at h1
      cases Move.from_uci (uci ++ [113]) with
      | none => simp [h1]
      | some m2 =>
        by_cases h2 : st.chessboard.is_legal m2 = true
        · exact Or.inr (Or.inl ⟨m2, by simp [h1, h2]⟩)
        · simp only [Bool.not_eq_true] at h2
          cases hr : st.lastReceived with
          | none => simp [h1, h2, hr]
          | some raw =>
            cases hlm : Move.from_uci raw with
            | none => simp [h1, h2, hr, hlm]
            | some lm => exact Or.inr (Or.inr ⟨lm, by simp [h1, h2, hr, hlm]⟩)

/-- `performMove` never touches the turn-ownership flag: the flag in a
returned state equals the flag of the input state. -/
theorem performMove_isMyMove {st : AppState} {uci : List Nat} {b : Bool}
    {st2 : AppState} (h : performMove st uci = some (b, st2)) :
    st2.isMyMove = st.isMyMove := by
  rcases performMove_cases st uci with h0 | ⟨m, hm⟩ | ⟨lm, hl⟩
  · rw [h0] at h; exact absurd h (by simp)
  · rw [hm] at h
    have h2 : st2 = (updateMoveOnboard st m).2 := by
      have := congrArg Prod.snd (Option.some.inj h); exact this.symm
    rw [h2]; rfl
  · rw [hl] at h
    have h2 : st2 = { st with lastMove := some lm } := by
      have := congrArg Prod.snd (Option.some.inj h); exact this.symm
    rw [h2]

/-- A rendering refresh (`self.update()`) is signalled exactly when the
move was applied: the update counter grows by one on `True` results and
is unchanged on `False` results. -/
theorem performMove_updates {st : AppState} {uci : List Nat} {b : Bool}
    {st2 : AppState} (h : performMove st uci = some (b, st2)) :
    st2.updates = st.updates + (if b then 1 else 0) := by
  rcases performMove_cases st uci with h0 | ⟨m, hm⟩ | ⟨lm, hl⟩
  · rw [h0] at h; exact absurd h (by simp)
  · rw [hm] at h
    have hb : b = (updateMoveOnboard st m).1 := (congrArg Prod.fst (Option.some.inj h)).symm
    have h2 : st2 = (updateMoveOnboard st m).2 :=
      (congrArg Prod.snd (Option.some.inj h)).symm
    rw [hb, h2]; rfl
  · rw [hl] at h
    have hb : b = false := (congrArg Prod.fst (Option.some.inj h)).symm
    have h2 : st2 = { st with lastMove := some lm } :=
      (congrArg Prod.snd (Option.some.inj h)).symm
    rw [hb, h2]; simp

/-- A `False` result of `performMove` leaves the board untouched. -/
theorem performMove_false_board {st : AppState} {uci : List Nat}
    {st2 : AppState} (h : performMove st uci = some (false, st2)) :
    st2.chessboard = st.chessboard := by
  rcases performMove_cases st uci with h0 | ⟨m, hm⟩ | ⟨lm, hl⟩
  · rw [h0] at h; exact absurd h (by simp)
  · rw [hm] at h
    have := congrArg Prod.fst (Option.some.inj h)
    simp [updateMoveOnboard] at this
  · rw [hl] at h
    have h2 : st2 = { st with lastMove := some lm } :=
      (congrArg Prod.snd (Option.some.inj h)).symm
    rw [h2]

/-- `Board.push` always hands the move to the other side. -/
theorem push_turn (p : Position) (m : Move) : (p.push m).turn = !p.turn := by
  by_cases hnull : (to_chess960 p m).from_square = 0 ∧ (to_chess960 p m).to_square = 0 ∧
      (to_chess960 p m).promotion = none
  · simp [Position.push, hnull]
  · simp [Position.push, hnull]

/-! ## Codec lemmas for the round-trip claim -/

/-- `parse_square` inverts `square_name` on board squares. -/
theorem parse_square_raw {s : Nat} (h : s < 64) :
    parse_square [97 + s % 8, 49 + s / 8] = some s := by
  simp only [parse_square]
  rw [if_pos (by omega)]
  congr 1
  omega

/-- `piece_symbol_index` inverts `piece_symbol` on piece kinds. -/
theorem piece_symbol_index_symbol {k : Nat} (h1 : 1 ≤ k) (h2 : k ≤ 6) :
    piece_symbol_index (piece_symbol k) = some k := by
  interval_cases k <;> rfl

/-- Decode inverts encode on any move whose squares sit on the board
and whose promotion field, if any, is a piece kind. -/
theorem from_uci_uci {m : Move} (hf : m.from_square < 64) (ht : m.to_square < 64)
    (hp : m.promotion = none ∨ ∃ k, m.promotion = some k ∧ 1 ≤ k ∧ k ≤ 6) :
    Move.from_uci m.uci = some m := by
  obtain ⟨f, t, pr⟩ := m
  simp only at hf ht
  rcases hp with hpn | ⟨k, hpk, hk1, hk6⟩
  · simp only at hpn
    subst hpn
    by_cases h0 : f = 0 ∧ t = 0
    · obtain ⟨rfl, rfl⟩ := h0
      rfl
    · simp only [Move.uci, square_name, if_neg h0, List.cons_append, List.nil_append]
      simp only [Move.from_uci]
      rw [if_neg (by simp only [List.cons.injEq, and_true]; omega)]
      rw [parse_square_raw hf, parse_square_raw ht]
  · simp only at hpk
    subst hpk
    simp only [Move.uci, square_name, List.cons_append, List.nil_append]
    simp only [Move.from_uci]
    rw [if_neg (by simp)]
    rw [piece_symbol_index_symbol hk1 hk6, parse_square_raw hf, parse_square_raw ht]

/-- Pseudo-legality implies the move's squares lie on the board. -/
theorem pseudo_legal_bounds {p : Position} {m : Move}
    (h : p.is_pseudo_legal m = true) :
    m.from_square < 64 ∧ m.to_square < 64 := by
  unfold Position.is_pseudo_legal at h
  split at h
  · simp at h
  · next hcond =>
    push_neg at hcond
    omega

/-- A legal castling move carries no promotion field. -/
theorem castling_ok_promo {p : Position} {m : Move} (h : castling_ok p m = true) :
    m.promotion = none := by
  unfold castling_ok at h
  split at h <;> split at h <;> exact (of_decide_eq_true h).2.1

/-- Pseudo-legality constrains the promotion field to a piece kind
(the pawn-move generator only ever emits queen, rook, bishop or
knight). -/
theorem pseudo_legal_promo {p : Position} {m : Move}
    (h : p.is_pseudo_legal m = true) :
    m.promotion = none ∨ ∃ k, m.promotion = some k ∧ 1 ≤ k ∧ k ≤ 6 := by
  cases hpr : m.promotion with
  | none => exact Or.inl rfl
  | some k =>
    right
    refine ⟨k, rfl, ?_, ?_⟩ <;>
    · unfold Position.is_pseudo_legal at h
      split at h
      · simp at h
      split at h
      · simp at h
      next hg =>
        rw [hpr] at hg
        simp at hg
        omega

/-! ## FEN round-trip on starting positions

The session-bootstrap claim needs `Board(fen=...)` to reconstruct the
host's freshly constructed board exactly, for the standard start and
for all 960 Chess960 starts.  The proof is generic in the backrank
arrangement: any `good_backrank` arrangement round-trips, and a
decidable sweep shows every Scharnagl backrank (and the standard one)
is good. -/

/-- Facts about the FEN letter byte of a white piece kind: it is not a
digit, lies in the upper-case range, is not a slash or a space, and
`piece_symbol_index` decodes its lower-cased form back to the kind. -/
theorem piece_byte_white {k : Nat} (h2 : 2 ≤ k) (h6 : k ≤ 6) :
    ¬(49 ≤ piece_fen_byte (true, k) ∧ piece_fen_byte (true, k) ≤ 56) ∧
    (65 ≤ piece_fen_byte (true, k) ∧ piece_fen_byte (true, k) ≤ 90) ∧
    piece_symbol_index (piece_fen_byte (true, k) + 32) = some k ∧
    piece_fen_byte (true, k) ≠ 47 ∧ piece_fen_byte (true, k) ≠ 32 := by
  interval_cases k <;> refine ⟨by decide, by decide, by decide, by decide, by decide⟩

/-- The same facts for a black piece kind (whose byte is lower case and
decodes directly). -/
theorem piece_byte_black {k : Nat} (h2 : 2 ≤ k) (h6 : k ≤ 6) :
    ¬(49 ≤ piece_fen_byte (false, k) ∧ piece_fen_byte (false, k) ≤ 56) ∧
    ¬(65 ≤ piece_fen_byte (false, k) ∧ piece_fen_byte (false, k) ≤ 90) ∧
    piece_symbol_index (piece_fen_byte (false, k)) = some k ∧
    piece_fen_byte (false, k) ≠ 47 ∧ piece_fen_byte (false, k) ≠ 32 := by
  interval_cases k <;> refine ⟨by decide, by decide, by decide, by decide, by decide⟩

/-- Unfolding equation of `split_on` at a cons cell. -/
theorem split_on_cons (sep b : Nat) (s : List Nat) :
    split_on sep (b :: s) =
      match split_on sep s with
      | [] => if b = sep then [[], []] else [[b]]
      | cur :: rest => if b = sep then [] :: cur :: rest else (b :: cur) :: rest := rfl

/-- `split_on` never returns the empty list of fields. -/
theorem split_on_ne_nil (sep : Nat) (s : List Nat) : split_on sep s ≠ [] := by
  induction s with
  | nil => simp [split_on]
  | cons b s ih =>
    rw [split_on_cons]
    cases h : split_on sep s with
    | nil =>
      show (if b = sep then [[], []] else [[b]]) ≠ []
      split <;> simp
    | cons cur rest =>
      show (if b = sep then [] :: cur :: rest else (b :: cur) :: rest) ≠ []
      split <;> simp

/-- A separator-free byte string splits into itself. -/
theorem split_on_no_sep {sep : Nat} {l : List Nat} (h : ∀ b ∈ l, b ≠ sep) :
    split_on sep l = [l] := by
  induction l with
  | nil => rfl
  | cons b s ih =>
    rw [split_on_cons, ih (fun x hx => h x (List.mem_cons_of_mem b hx))]
    simp [h b (List.mem_cons_self b s)]

/-- Splitting a string that starts with a separator-free field. -/
theorem split_on_append {sep : Nat} {l1 : List Nat} (l2 : List Nat)
    (h : ∀ b ∈ l1, b ≠ sep) :
    split_on sep (l1 ++ sep :: l2) = l1 :: split_on sep l2 := by
  induction l1 with
  | nil =>
    rw [List.nil_append, split_on_cons]
    cases hs : split_on sep l2 with
    | nil => exact absurd hs (split_on_ne_nil sep l2)
    | cons cur rest =>
      show (if sep = sep then [] :: cur :: rest else (sep :: cur) :: rest) =
        [] :: cur :: rest
      simp
  | cons b s ih =>
    rw [List.cons_append, split_on_cons,
      ih (fun x hx => h x (List.mem_cons_of_mem b hx))]
    simp [h b (List.mem_cons_self b s)]

/-- `split_on` inverts `join_slash` when no field contains the
slash byte. -/
theorem split_on_join_slash :
    ∀ rows : List (List Nat), rows ≠ [] →
      (∀ r ∈ rows, ∀ b ∈ r, b ≠ 47) →
      split_on 47 (join_slash rows) = rows
  | [], hne, _ => absurd rfl hne
  | [r], _, h => by
    rw [join_slash, split_on_no_sep (h r (List.mem_singleton_self r))]
  | r :: r2 :: rs, _, h => by
    rw [show join_slash (r :: r2 :: rs) = r ++ 47 :: join_slash (r2 :: rs) from rfl]
    rw [split_on_append _ (h r (List.mem_cons_self r (r2 :: rs)))]
    rw [split_on_join_slash (r2 :: rs) (by simp)
      (fun x hx => h x (List.mem_cons_of_mem r hx))]

/-- The run-length fold of `rank_fen` over a rank of pieces emits one
letter byte per piece. -/
theorem rank_fen_fold (c : Color) :
    ∀ (l : List Nat) (acc : List Nat),
      (l.map fun k => some (c, k)).foldl rank_fen_step (acc, 0) =
        (acc ++ l.map (fun k => piece_fen_byte (c, k)), 0)
  | [], acc => by simp
  | k :: l, acc => by
    have h2 := rank_fen_fold c l (acc ++ [piece_fen_byte (c, k)])
    simp only [List.map_cons, List.foldl_cons, rank_fen_step, if_pos rfl, if_true,
      List.append_nil] at h2 ⊢
    rw [h2]
    simp

/-- `rank_fen` on a full rank of same-colored pieces. -/
theorem rank_fen_map (c : Color) (l : List Nat) :
    rank_fen (l.map fun k => some (c, k)) =
      l.map fun k => piece_fen_byte (c, k) := by
  unfold rank_fen
  rw [rank_fen_fold c l []]
  simp

/-- Parsing a rank of same-colored piece letters recovers the pieces. -/
theorem parse_rank_fold (c : Color) :
    ∀ (l : List Nat), (∀ k ∈ l, 2 ≤ k ∧ k ≤ 6) →
      ∀ acc : List (Option Piece),
        (l.map fun k => piece_fen_byte (c, k)).foldl parse_rank_step (some acc) =
          some (acc ++ l.map fun k => some (c, k))
  | [], _, acc => by simp
  | k :: l, h, acc => by
    obtain ⟨hk2, hk6⟩ := h k (List.mem_cons_self k l)
    have ih := parse_rank_fold c l (fun x hx => h x (List.mem_cons_of_mem k hx))
      (acc ++ [some (c, k)])
    simp only [List.map_cons, List.foldl_cons]
    have hstep : parse_rank_step (some acc) (piece_fen_byte (c, k)) =
        some (acc ++ [some (c, k)]) := by
      cases c with
      | true =>
        obtain ⟨hnd, hup, hsym, _, _⟩ := piece_byte_white hk2 hk6
        simp [parse_rank_step, hnd, hup, hsym]
      | false =>
        obtain ⟨hnd, hup, hsym, _, _⟩ := piece_byte_black hk2 hk6
        simp [parse_rank_step, hnd, hup, hsym]
    rw [hstep, ih]
    simp

/-- `parse_rank` inverts `rank_fen` on a full rank of same-colored
pieces. -/
theorem parse_rank_map (c : Color) (l : List Nat)
    (h : ∀ k ∈ l, 2 ≤ k ∧ k ≤ 6) (hlen : l.length = 8) :
    parse_rank (l.map fun k => piece_fen_byte (c, k)) =
      some (l.map fun k => some (c, k)) := by
  unfold parse_rank
  rw [parse_rank_fold c l h []]
  simp [hlen]

/-- The eight rank-8-to-rank-1 chunks of a starting board. -/
theorem start_board_rows (K : List Nat) (hlen : K.length = 8) :
    ((start_of K).board.drop 0).take 8 = K.map (fun k => some (true, k)) ∧
    ((start_of K).board.drop 8).take 8 = List.replicate 8 (some (true, 1)) ∧
    ((start_of K).board.drop 16).take 8 = List.replicate 8 (none : Option Piece) ∧
    ((start_of K).board.drop 24).take 8 = List.replicate 8 (none : Option Piece) ∧
    ((start_of K).board.drop 32).take 8 = List.replicate 8 (none : Option Piece) ∧
    ((start_of K).board.drop 40).take 8 = List.replicate 8 (none : Option Piece) ∧
    ((start_of K).board.drop 48).take 8 = List.replicate 8 (some (false, 1)) ∧
    (start_of K).board.drop 56 = K.map (fun k => some (false, k)) := by
  have hA : (K.map fun k => some (true, k)).length = 8 := by simp [hlen]
  have hE : (K.map fun k => some (false, k)).length = 8 := by simp [hlen]
  have hrep : ∀ x : Option Piece, (List.replicate 8 x).length = 8 := fun x => by simp
  have hboard : (start_of K).board =
      (K.map fun k => some (true, k)) ++ (List.replicate 8 (some (true, 1)) ++
        (List.replicate 8 (none : Option Piece) ++
          (List.replicate 8 (none : Option Piece) ++
            (List.replicate 8 (none : Option Piece) ++
              (List.replicate 8 (none : Option Piece) ++
                (List.replicate 8 (some (false, 1)) ++
                  (K.map fun k => some (false, k)))))))) := by
    show (K.map fun k => some (true, k)) ++ List.replicate 8 (some (true, 1)) ++
        List.replicate 32 (none : Option Piece) ++
        List.replicate 8 (some (false, 1)) ++ (K.map fun k => some (false, k)) = _
    rw [show (32 : Nat) = 8 + (8 + (8 + 8)) from rfl]
    simp [List.replicate_add, List.append_assoc]
  have d8 : ∀ (l1 l2 : List (Option Piece)), l1.length = 8 → (l1 ++ l2).drop 8 = l2 := by
    intro l1 l2 h
    rw [← h, List.drop_left]
  have t8 : ∀ (l1 l2 : List (Option Piece)), l1.length = 8 → (l1 ++ l2).take 8 = l1 := by
    intro l1 l2 h
    rw [← h, List.take_left]
  have h08 : (start_of K).board.drop 8 =
      List.replicate 8 (some (true, 1)) ++
        (List.replicate 8 (none : Option Piece) ++
          (List.replicate 8 (none : Option Piece) ++
            (List.replicate 8 (none : Option Piece) ++
              (List.replicate 8 (none : Option Piece) ++
                (List.replicate 8 (some (false, 1)) ++
                  (K.map fun k => some (false, k))))))) := by
    rw [hboard]; exact d8 _ _ hA
  have h16 : (start_of K).board.drop 16 =
      List.replicate 8 (none : Option Piece) ++
        (List.replicate 8 (none : Option Piece) ++
          (List.replicate 8 (none : Option Piece) ++
            (List.replicate 8 (none : Option Piece) ++
              (List.replicate 8 (some (false, 1)) ++
                (K.map fun k => some (false, k)))))) := by
    rw [show (16 : Nat) = 8 + 8 from rfl, ← List.drop_drop, h08]
    exact d8 _ _ (hrep _)
  have h24 : (start_of K).board.drop 24 =
      List.replicate 8 (none : Option Piece) ++
        (List.replicate 8 (none : Option Piece) ++
          (List.replicate 8 (none : Option Piece) ++
            (List.replicate 8 (some (false, 1)) ++ (K.map fun k => some (false, k))))) := by
    rw [show (24 : Nat) = 16 + 8 from rfl, ← List.drop_drop, h16]
    exact d8 _ _ (hrep _)
  have h32 : (start_of K).board.drop 32 =
      List.replicate 8 (none : Option Piece) ++
        (List.replicate 8 (none : Option Piece) ++
          (List.replicate 8 (some (false, 1)) ++ (K.map fun k => some (false, k)))) := by
    rw [show (32 : Nat) = 24 + 8 from rfl, ← List.drop_drop, h24]
    exact d8 _ _ (hrep _)
  have h40 : (start_of K).board.drop 40 =
      List.replicate 8 (none : Option Piece) ++
        (List.replicate 8 (some (false, 1)) ++ (K.map fun k => some (false, k))) := by
    rw [show (40 : Nat) = 32 + 8 from rfl, ← List.drop_drop, h32]
    exact d8 _ _ (hrep _)
  have h48 : (start_of K).board.drop 48 =
      List.replicate 8 (some (false, 1)) ++ (K.map fun k => some (false, k)) := by
    rw [show (48 : Nat) = 40 + 8 from rfl, ← List.drop_drop, h40]
    exact d8 _ _ (hrep _)
  have h56 : (start_of K).board.drop 56 = K.map fun k => some (false, k) := by
    rw [show (56 : Nat) = 48 + 8 from rfl, ← List.drop_drop, h48]
    exact d8 _ _ (hrep _)
  refine ⟨?_, ?_, ?_, ?_, ?_, ?_, ?_, h56⟩
  · rw [List.drop_zero, hboard, t8 _ _ hA]
  · rw [h08, t8 _ _ (hrep _)]
  · rw [h16, t8 _ _ (hrep _)]
  · rw [h24, t8 _ _ (hrep _)]
  · rw [h32, t8 _ _ (hrep _)]
  · rw [h40, t8 _ _ (hrep _)]
  · rw [h48, t8 _ _ (hrep _)]

/-- Squares 0..7 of a starting position hold the white backrank. -/
theorem piece_at_start_white (K : List Nat) (hlen : K.length = 8) (f : Nat)
    (hf : f < 8) : piece_at (start_of K) f = some (true, K.getD f 0) := by
  have hfK : f < K.length := by omega
  have h0 := (start_board_rows K hlen).1
  rw [List.drop_zero] at h0
  unfold piece_at
  rw [List.getD_eq_getElem?_getD,
    show (start_of K).board[f]? = ((start_of K).board.take 8)[f]? by
      rw [List.getElem?_take, if_pos hf],
    h0, List.getElem?_map, List.getElem?_eq_getElem hfK]
  simp [List.getD_eq_getElem?_getD, List.getElem?_eq_getElem hfK]

/-- Squares 56..63 of a starting position hold the black backrank. -/
theorem piece_at_start_black (K : List Nat) (hlen : K.length = 8) (f : Nat)
    (hf : f < 8) : piece_at (start_of K) (56 + f) = some (false, K.getD f 0) := by
  have hfK : f < K.length := by omega
  have h56 := (start_board_rows K hlen).2.2.2.2.2.2.2
  unfold piece_at
  rw [List.getD_eq_getElem?_getD, ← List.getElem?_drop, h56, List.getElem?_map,
    List.getElem?_eq_getElem hfK]
  simp [List.getD_eq_getElem?_getD, List.getElem?_eq_getElem hfK]

/-- Squares 8..55 of a starting position hold pawns or nothing: never a
backrank piece kind. -/
theorem piece_at_start_middle (K : List Nat) (hlen : K.length = 8) (s : Nat)
    (h8 : 8 ≤ s) (h56 : s < 56) :
    piece_at (start_of K) s = some (true, 1) ∨
    piece_at (start_of K) s = none ∨
    piece_at (start_of K) s = some (false, 1) := by
  have rows := start_board_rows K hlen
  have access : ∀ (n : Nat) (x : Option Piece),
      ((start_of K).board.drop n).take 8 = List.replicate 8 x →
      n ≤ s → s < n + 8 → piece_at (start_of K) s = x := by
    intro n x htake hns hsn
    unfold piece_at
    rw [List.getD_eq_getElem?_getD, show s = n + (s - n) by omega, ← List.getElem?_drop]
    rw [show ((start_of K).board.drop n)[s - n]? =
        (((start_of K).board.drop n).take 8)[s - n]? by
      rw [List.getElem?_take, if_pos (by omega)]]
    rw [htake, List.getElem?_replicate, if_pos (by omega)]
    rfl
  by_cases c16 : s < 16
  · exact Or.inl (access 8 _ rows.2.1 h8 (by omega))
  by_cases c24 : s < 24
  · exact Or.inr (Or.inl (access 16 _ rows.2.2.1 (by omega) (by omega)))
  by_cases c32 : s < 32
  · exact Or.inr (Or.inl (access 24 _ rows.2.2.2.1 (by omega) (by omega)))
  by_cases c40 : s < 40
  · exact Or.inr (Or.inl (access 32 _ rows.2.2.2.2.1 (by omega) (by omega)))
  by_cases c48 : s < 48
  · exact Or.inr (Or.inl (access 40 _ rows.2.2.2.2.2.1 (by omega) (by omega)))
  · exact Or.inr (Or.inr (access 48 _ rows.2.2.2.2.2.2.1 (by omega) (by omega)))

/-- Comparing a piece of known color reduces to comparing kinds. -/
theorem decide_piece_eq (c : Color) (x k : Nat) :
    decide (some ((c, x) : Piece) = some ((c, k) : Piece)) = (x == k) := by
  cases hb : x == k with
  | true =>
    have := eq_of_beq hb
    simp [this]
  | false =>
    have hne : x ≠ k := ne_of_beq_false hb
    simp [hne]

/-- The squares of a starting position holding a white king are the
white-backrank king files. -/
theorem king_filter_start (K : List Nat) (hlen : K.length = 8) :
    ((List.range 64).filter fun s =>
        decide (piece_at (start_of K) s = some (true, 6))) = king_files K := by
  rw [show (64 : Nat) = 8 + 56 from rfl, List.range_add, List.filter_append]
  have h2 : ((List.range 56).map fun x => 8 + x).filter
      (fun s => decide (piece_at (start_of K) s = some (true, 6))) = [] := by
    rw [List.filter_eq_nil_iff]
    intro a ha
    obtain ⟨x, hx, rfl⟩ := List.mem_map.mp ha
    have hx56 := List.mem_range.mp hx
    by_cases h48 : 8 + x < 56
    · rcases piece_at_start_middle K hlen (8 + x) (by omega) h48 with h | h | h <;>
        simp [h]
    · have := piece_at_start_black K hlen (8 + x - 56) (by omega)
      rw [show 56 + (8 + x - 56) = 8 + x by omega] at this
      simp [this]
  rw [h2, List.append_nil]
  unfold king_files
  apply List.filter_congr
  intro x hx
  rw [piece_at_start_white K hlen x (List.mem_range.mp hx)]
  exact decide_piece_eq true (K.getD x 0) 6

/-- The squares of a starting position holding a black king are the
king files shifted to the eighth rank. -/
theorem king_filter_start_black (K : List Nat) (hlen : K.length = 8) :
    ((List.range 64).filter fun s =>
        decide (piece_at (start_of K) s = some (false, 6))) =
      (king_files K).map (fun f => 56 + f) := by
  rw [show (64 : Nat) = 56 + 8 from rfl, List.range_add, List.filter_append]
  have h1 : (List.range 56).filter
      (fun s => decide (piece_at (start_of K) s = some (false, 6))) = [] := by
    rw [List.filter_eq_nil_iff]
    intro a ha
    have ha56 := List.mem_range.mp ha
    by_cases h8 : a < 8
    · simp [piece_at_start_white K hlen a h8]
    · rcases piece_at_start_middle K hlen a (by omega) ha56 with h | h | h <;> simp [h]
  rw [h1, List.nil_append, List.filter_map]
  unfold king_files
  rw [List.filter_congr (q := fun f => K.getD f 0 == 6) ?_]
  intro x hx
  rw [Function.comp_apply, piece_at_start_black K hlen x (List.mem_range.mp hx)]
  exact decide_piece_eq false (K.getD x 0) 6

/-- `Board.king` on a starting position returns the king squares given
by the backrank's king file. -/
theorem king_square_start (K : List Nat) (hlen : K.length = 8) (kf : Nat)
    (hk : king_files K = [kf]) :
    king_square (start_of K) true = some kf ∧
    king_square (start_of K) false = some (56 + kf) := by
  unfold king_square
  rw [king_filter_start K hlen, king_filter_start_black K hlen, hk]
  simp

/-- A `filterMap` that guards a mapped value is a filter followed by a
map. -/
theorem filterMap_guard_map {l : List Nat} {p : Nat → Bool} {g : Nat → Nat} :
    l.filterMap (fun f => if p f then some (g f) else none) = (l.filter p).map g := by
  induction l with
  | nil => rfl
  | cons a l ih =>
    by_cases h : p a <;> simp [List.filterMap_cons, List.filter_cons, h, ih]

/-- Comparing pairs with equal first components reduces to the second
components. -/
theorem piece_beq (c : Color) (x k : Nat) :
    (((c, x) : Piece) == ((c, k) : Piece)) = (x == k) := by
  have h0 : (((c, x) : Piece) == ((c, k) : Piece)) = ((c == c) && (x == k)) := rfl
  rw [h0]
  cases c <;> simp

/-- Data carried by a two-rook `rook_files` equation: both files are on
the backrank and hold rooks. -/
theorem rook_files_bounds {K : List Nat} {r1 r2 : Nat}
    (hr : rook_files K = [r1, r2]) :
    r1 < 8 ∧ K.getD r1 0 = 4 ∧ r2 < 8 ∧ K.getD r2 0 = 4 := by
  have m1 : r1 ∈ rook_files K := by rw [hr]; simp
  have m2 : r2 ∈ rook_files K := by rw [hr]; simp
  unfold rook_files at m1 m2
  obtain ⟨hm1, hp1⟩ := List.mem_filter.mp m1
  obtain ⟨hm2, hp2⟩ := List.mem_filter.mp m2
  exact ⟨List.mem_range.mp hm1, by simpa using hp1, List.mem_range.mp hm2,
    by simpa using hp2⟩

/-- On the backrank, a square holds a rook exactly when it is one of
the two rook files. -/
theorem rook_files_iff {K : List Nat} {r1 r2 : Nat}
    (hr : rook_files K = [r1, r2]) {f : Nat} (hf : f < 8) :
    K.getD f 0 = 4 ↔ (f = r1 ∨ f = r2) := by
  constructor
  · intro h
    have : f ∈ rook_files K := by
      unfold rook_files
      exact List.mem_filter.mpr ⟨List.mem_range.mpr hf, by rw [h]; rfl⟩
    rw [hr] at this
    simpa using this
  · intro h
    have : f ∈ rook_files K := by rw [hr]; rcases h with rfl | rfl <;> simp
    unfold rook_files at this
    have := (List.mem_filter.mp this).2
    simpa using this

/-- The king file of a one-king `king_files` equation is on the
backrank and holds the king. -/
theorem king_files_bounds {K : List Nat} {kf : Nat} (hk : king_files K = [kf]) :
    kf < 8 ∧ K.getD kf 0 = 6 := by
  have m : kf ∈ king_files K := by rw [hk]; simp
  unfold king_files at m
  obtain ⟨hm, hp⟩ := List.mem_filter.mp m
  exact ⟨List.mem_range.mp hm, by simpa using hp⟩

/-- The rights list of a starting position, in terms of its two rook
files. -/
theorem start_rights_eq {K : List Nat} {r1 r2 : Nat}
    (hr : rook_files K = [r1, r2]) :
    start_rights K = [r2, r1, 56 + r2, 56 + r1] := by
  unfold start_rights
  rw [hr]
  rfl

/-- A `filterMap` that guards the element itself is a filter. -/
theorem filterMap_guard_id {l : List Nat} {p : Nat → Bool} :
    l.filterMap (fun f => if p f then some f else none) = l.filter p := by
  induction l with
  | nil => rfl
  | cons a l ih =>
    by_cases h : p a <;> simp [List.filterMap_cons, List.filter_cons, h, ih]

/-- `clean_rights_desc` for White, with the backrank offset
simplified away. -/
theorem clean_rights_desc_white (p : Position) :
    clean_rights_desc p true =
      (if (List.range 8).any (fun f => decide (piece_at p f = some (true, 6))) then
        ((List.range 8).filterMap fun f =>
          if piece_at p f = some (true, 4) ∧ f ∈ p.castling_rights then some f
          else none).reverse
      else []) := by
  unfold clean_rights_desc
  norm_num

/-- `clean_rights_desc` for Black, with the backrank offset
simplified away. -/
theorem clean_rights_desc_black (p : Position) :
    clean_rights_desc p false =
      (if (List.range 8).any
          (fun f => decide (piece_at p (56 + f) = some (false, 6))) then
        ((List.range 8).filterMap fun f =>
          if piece_at p (56 + f) = some (false, 4) ∧ (56 + f) ∈ p.castling_rights then
            some (56 + f)
          else none).reverse
      else []) := by
  unfold clean_rights_desc
  norm_num [Nat.add_comm]

/-- The rights-holding rooks of a starting position, in descending
square order, for each color: the h-side rook then the a-side rook. -/
theorem clean_rights_start (K : List Nat) (hlen : K.length = 8) (kf r1 r2 : Nat)
    (hk : king_files K = [kf]) (hr : rook_files K = [r1, r2]) :
    clean_rights_desc (start_of K) true = [r2, r1] ∧
    clean_rights_desc (start_of K) false = [56 + r2, 56 + r1] := by
  obtain ⟨hkf8, hkf6⟩ := king_files_bounds hk
  obtain ⟨hr18, hr14, hr28, hr24⟩ := rook_files_bounds hr
  have hrights : (start_of K).castling_rights = [r2, r1, 56 + r2, 56 + r1] := by
    show start_rights K = _
    exact start_rights_eq hr
  constructor
  · rw [clean_rights_desc_white]
    have hany : ((List.range 8).any
        (fun f => decide (piece_at (start_of K) f = some (true, 6)))) = true := by
      refine List.any_eq_true.mpr ⟨kf, List.mem_range.mpr hkf8, ?_⟩
      rw [piece_at_start_white K hlen kf hkf8, hkf6]
      simp
    rw [if_pos hany]
    have hcong : ∀ f ∈ List.range 8,
        (if piece_at (start_of K) f = some (true, 4) ∧
            f ∈ (start_of K).castling_rights then some f else none) =
          (if (K.getD f 0 == 4) then some f else none) := by
      intro f hf
      have hf8 := List.mem_range.mp hf
      by_cases h4 : K.getD f 0 = 4
      · rw [if_pos ⟨by rw [piece_at_start_white K hlen f hf8, h4],
          by rw [hrights]
             rcases (rook_files_iff hr hf8).mp h4 with rfl | rfl <;> simp⟩,
          if_pos (by rw [h4]; rfl)]
      · rw [if_neg ?_, if_neg ?_]
        · intro hc
          cases hb : K.getD f 0 == 4 with
          | true => exact h4 (eq_of_beq hb)
          | false => rw [hb] at hc; cases hc
        · intro hc
          obtain ⟨hc1, _⟩ := hc
          rw [piece_at_start_white K hlen f hf8] at hc1
          exact h4 (by injection hc1 with h5; injection h5 with _ h6)
    rw [List.filterMap_congr hcong, filterMap_guard_id]
    show (rook_files K).reverse = _
    rw [hr]
    rfl
  · rw [clean_rights_desc_black]
    have hany : ((List.range 8).any
        (fun f => decide (piece_at (start_of K) (56 + f) = some (false, 6)))) = true := by
      refine List.any_eq_true.mpr ⟨kf, List.mem_range.mpr hkf8, ?_⟩
      rw [piece_at_start_black K hlen kf hkf8, hkf6]
      simp
    rw [if_pos hany]
    have hcong : ∀ f ∈ List.range 8,
        (if piece_at (start_of K) (56 + f) = some (false, 4) ∧
            (56 + f) ∈ (start_of K).castling_rights then some (56 + f) else none) =
          (if (K.getD f 0 == 4) then some (56 + f) else none) := by
      intro f hf
      have hf8 := List.mem_range.mp hf
      by_cases h4 : K.getD f 0 = 4
      · rw [if_pos ⟨by rw [piece_at_start_black K hlen f hf8, h4],
          by rw [hrights]
             rcases (rook_files_iff hr hf8).mp h4 with rfl | rfl <;> simp⟩,
          if_pos (by rw [h4]; rfl)]
      · rw [if_neg ?_, if_neg ?_]
        · intro hc
          cases hb : K.getD f 0 == 4 with
          | true => exact h4 (eq_of_beq hb)
          | false => rw [hb] at hc; cases hc
        · intro hc
          obtain ⟨hc1, _⟩ := hc
          rw [piece_at_start_black K hlen f hf8] at hc1
          exact h4 (by injection hc1 with h5; injection h5 with _ h6)
    rw [List.filterMap_congr hcong, filterMap_guard_map]
    show ((rook_files K).map (fun f => 56 + f)).reverse = _
    rw [hr]
    rfl

/-- `castling_xfen_color` for White with a known king square, offsets
and lets simplified away. -/
theorem castling_xfen_white (p : Position) (kf : Nat)
    (hks : king_square p true = some kf) :
    castling_xfen_color p true =
      (clean_rights_desc p true).map fun s =>
        (if (List.range 8).any fun f =>
            decide (f ≠ square_file s) &&
              ((piece_at p f).any fun pc => pc == ((true : Color), 4)) &&
              (decide (f < square_file s) == decide (square_file s < square_file kf)) then
          97 + square_file s
        else if square_file s < square_file kf then 113
        else 107) - 32 := by
  unfold castling_xfen_color
  rw [hks]
  norm_num

/-- `castling_xfen_color` for Black with a known king square, offsets
and lets simplified away. -/
theorem castling_xfen_black (p : Position) (kb : Nat)
    (hks : king_square p false = some kb) :
    castling_xfen_color p false =
      (clean_rights_desc p false).map fun s =>
        if (List.range 8).any fun f =>
            decide (f ≠ square_file s) &&
              ((piece_at p (56 + f)).any fun pc => pc == ((false : Color), 4)) &&
              (decide (f < square_file s) == decide (square_file s < square_file kb)) then
          97 + square_file s
        else if square_file s < square_file kb then 113
        else 107 := by
  unfold castling_xfen_color
  rw [hks]
  norm_num [Nat.add_comm]

/-- A starting position's castling field is exactly KQkq: on each side
the rights rook past the king has no companion rook on its side, so the
flags collapse to the letters k and q. -/
theorem castling_fen_start (K : List Nat) (hlen : K.length = 8) (kf r1 r2 : Nat)
    (hk : king_files K = [kf]) (hr : rook_files K = [r1, r2])
    (h1 : r1 < kf) (h2 : kf < r2) :
    castling_fen (start_of K) = [75, 81, 107, 113] := by
  obtain ⟨hkf8, hkf6⟩ := king_files_bounds hk
  obtain ⟨hr18, hr14, hr28, hr24⟩ := rook_files_bounds hr
  obtain ⟨hcw, hcb⟩ := clean_rights_start K hlen kf r1 r2 hk hr
  obtain ⟨hksw, hksb⟩ := king_square_start K hlen kf hk
  have hno2 : ((List.range 8).any fun f =>
      decide (f ≠ r2) && ((piece_at (start_of K) f).any fun pc => pc == ((true : Color), 4)) &&
        (decide (f < r2) == decide (r2 < kf))) = false := by
    rw [List.any_eq_false]
    intro f hf hcon
    have hf8 := List.mem_range.mp hf
    simp only [Bool.and_eq_true] at hcon
    obtain ⟨⟨hne, hrook⟩, hside⟩ := hcon
    rw [piece_at_start_white K hlen f hf8] at hrook
    simp only [Option.any_some, piece_beq] at hrook
    rcases (rook_files_iff hr hf8).mp (eq_of_beq hrook) with rfl | rfl
    · rw [decide_eq_true (show f < r2 by omega),
        decide_eq_false (show ¬r2 < kf by omega)] at hside
      simp at hside
    · simp at hne
  have hno1 : ((List.range 8).any fun f =>
      decide (f ≠ r1) && ((piece_at (start_of K) f).any fun pc => pc == ((true : Color), 4)) &&
        (decide (f < r1) == decide (r1 < kf))) = false := by
    rw [List.any_eq_false]
    intro f hf hcon
    have hf8 := List.mem_range.mp hf
    simp only [Bool.and_eq_true] at hcon
    obtain ⟨⟨hne, hrook⟩, hside⟩ := hcon
    rw [piece_at_start_white K hlen f hf8] at hrook
    simp only [Option.any_some, piece_beq] at hrook
    rcases (rook_files_iff hr hf8).mp (eq_of_beq hrook) with rfl | rfl
    · simp at hne
    · rw [decide_eq_false (show ¬f < r1 by omega),
        decide_eq_true (show r1 < kf by omega)] at hside
      simp at hside
  have hbno2 : ((List.range 8).any fun f =>
      decide (f ≠ r2) &&
        ((piece_at (start_of K) (56 + f)).any fun pc => pc == ((false : Color), 4)) &&
        (decide (f < r2) == decide (r2 < kf))) = false := by
    rw [List.any_eq_false]
    intro f hf hcon
    have hf8 := List.mem_range.mp hf
    simp only [Bool.and_eq_true] at hcon
    obtain ⟨⟨hne, hrook⟩, hside⟩ := hcon
    rw [piece_at_start_black K hlen f hf8] at hrook
    simp only [Option.any_some, piece_beq] at hrook
    rcases (rook_files_iff hr hf8).mp (eq_of_beq hrook) with rfl | rfl
    · rw [decide_eq_true (show f < r2 by omega),
        decide_eq_false (show ¬r2 < kf by omega)] at hside
      simp at hside
    · simp at hne
  have hbno1 : ((List.range 8).any fun f =>
      decide (f ≠ r1) &&
        ((piece_at (start_of K) (56 + f)).any fun pc => pc == ((false : Color), 4)) &&
        (decide (f < r1) == decide (r1 < kf))) = false := by
    rw [List.any_eq_false]
    intro f hf hcon
    have hf8 := List.mem_range.mp hf
    simp only [Bool.and_eq_true] at hcon
    obtain ⟨⟨hne, hrook⟩, hside⟩ := hcon
    rw [piece_at_start_black K hlen f hf8] at hrook
    simp only [Option.any_some, piece_beq] at hrook
    rcases (rook_files_iff hr hf8).mp (eq_of_beq hrook) with rfl | rfl
    · simp at hne
    · rw [decide_eq_false (show ¬f < r1 by omega),
        decide_eq_true (show r1 < kf by omega)] at hside
      simp at hside
  have hxw : castling_xfen_color (start_of K) true = [75, 81] := by
    rw [castling_xfen_white (start_of K) kf hksw, hcw]
    simp only [List.map_cons, List.map_nil, square_file, Nat.mod_eq_of_lt hr28,
      Nat.mod_eq_of_lt hr18, Nat.mod_eq_of_lt hkf8]
    rw [hno2, hno1, if_neg Bool.false_ne_true, if_neg Bool.false_ne_true,
      if_neg (show ¬r2 < kf by omega), if_pos h1]
  have hxb : castling_xfen_color (start_of K) false = [107, 113] := by
    rw [castling_xfen_black (start_of K) (56 + kf) hksb, hcb]
    simp only [List.map_cons, List.map_nil, square_file,
      show (56 + r2) % 8 = r2 by omega, show (56 + r1) % 8 = r1 by omega,
      show (56 + kf) % 8 = kf by omega]
    rw [hbno2, hbno1, if_neg Bool.false_ne_true, if_neg Bool.false_ne_true,
      if_neg (show ¬r2 < kf by omega), if_pos h1]
  unfold castling_fen
  rw [hxw, hxb]
  rfl

/-- The backrank piece filters used by `castling_flag_square`, on a
starting board: they recover the rook and king files of the
arrangement. -/
theorem start_filters (K : List Nat) (hlen : K.length = 8) :
    (((List.range 8).filter fun f =>
        ((start_of K).board[f]?.getD none).any fun pc => pc == ((true : Color), 4)) =
      rook_files K) ∧
    (((List.range 8).filter fun f =>
        ((start_of K).board[f]?.getD none).any fun pc => pc == ((true : Color), 6)) =
      king_files K) ∧
    (((List.range 8).filter fun f =>
        ((start_of K).board[56 + f]?.getD none).any fun pc => pc == ((false : Color), 4)) =
      rook_files K) ∧
    (((List.range 8).filter fun f =>
        ((start_of K).board[56 + f]?.getD none).any fun pc => pc == ((false : Color), 6)) =
      king_files K) := by
  refine ⟨?_, ?_, ?_, ?_⟩ <;> refine List.filter_congr ?_ <;> intro f hf <;>
    have hf8 := List.mem_range.mp hf
  · have hp : (start_of K).board[f]?.getD none = some (true, K.getD f 0) := by
      rw [← List.getD_eq_getElem?_getD]
      exact piece_at_start_white K hlen f hf8
    simp only [hp, Option.any_some, piece_beq]
  · have hp : (start_of K).board[f]?.getD none = some (true, K.getD f 0) := by
      rw [← List.getD_eq_getElem?_getD]
      exact piece_at_start_white K hlen f hf8
    simp only [hp, Option.any_some, piece_beq]
  · have hp : (start_of K).board[56 + f]?.getD none = some (false, K.getD f 0) := by
      rw [← List.getD_eq_getElem?_getD]
      exact piece_at_start_black K hlen f hf8
    simp only [hp, Option.any_some, piece_beq]
  · have hp : (start_of K).board[56 + f]?.getD none = some (false, K.getD f 0) := by
      rw [← List.getD_eq_getElem?_getD]
      exact piece_at_start_black K hlen f hf8
    simp only [hp, Option.any_some, piece_beq]

/-- Parsing the castling field KQkq against a starting board recovers
exactly the rights list of the starting position. -/
theorem parse_castling_start (K : List Nat) (hlen : K.length = 8) (kf r1 r2 : Nat)
    (hk : king_files K = [kf]) (hr : rook_files K = [r1, r2])
    (h1 : r1 < kf) (h2 : kf < r2) :
    parse_castling (start_of K).board [75, 81, 107, 113] = some (start_rights K) := by
  obtain ⟨hfrW, hfkW, hfrB, hfkB⟩ := start_filters K hlen
  have hK75 : castling_flag_square (start_of K).board 75 = some r2 := by
    unfold castling_flag_square
    norm_num
    rw [← List.filter_getLast?, ← List.filter_getLast?, hfrW, hfkW, hr, hk]
    simp [h2]
  have hQ81 : castling_flag_square (start_of K).board 81 = some r1 := by
    unfold castling_flag_square
    norm_num
    rw [← List.filter_head?, ← List.filter_getLast?, hfrW, hfkW, hr, hk]
    simp [h1]
  have hk107 : castling_flag_square (start_of K).board 107 = some (56 + r2) := by
    unfold castling_flag_square
    norm_num
    rw [← List.filter_getLast?, ← List.filter_getLast?, hfrB, hfkB, hr, hk]
    simp [h2]
  have hq113 : castling_flag_square (start_of K).board 113 = some (56 + r1) := by
    unfold castling_flag_square
    norm_num
    rw [← List.filter_head?, ← List.filter_getLast?, hfrB, hfkB, hr, hk]
    simp [h1]
  unfold parse_castling
  rw [if_neg (by decide)]
  simp only [List.foldl_cons, List.foldl_nil, hK75, hQ81, hk107, hq113]
  simp [start_rights_eq hr]

/-- The placement field of a starting position, row by row: piece
letters on the backranks, runs of pawns and empty ranks in between. -/
theorem placement_fen_start (K : List Nat) (hlen : K.length = 8) :
    placement_fen (start_of K) =
      join_slash [K.map fun k => piece_fen_byte ((false : Color), k),
        List.replicate 8 112, [56], [56], [56], [56],
        List.replicate 8 80,
        K.map fun k => piece_fen_byte ((true : Color), k)] := by
  obtain ⟨h0, h8, h16, h24, h32, h40, h48, h56⟩ := start_board_rows K hlen
  rw [List.drop_zero] at h0
  have h56t : ((start_of K).board.drop 56).take 8 =
      K.map fun k => some ((false : Color), k) := by
    rw [h56]
    exact List.take_of_length_le (by simp [hlen])
  unfold placement_fen
  rw [show List.range 8 = [0, 1, 2, 3, 4, 5, 6, 7] from rfl]
  simp only [List.map_cons, List.map_nil]
  norm_num [h0, h8, h16, h24, h32, h40, h48, h56t]
  simp only [rank_fen_map,
    show rank_fen (List.replicate 8 (some ((true : Color), 1))) =
      List.replicate 8 80 from rfl,
    show rank_fen (List.replicate 8 (some ((false : Color), 1))) =
      List.replicate 8 112 from rfl,
    show rank_fen (List.replicate 8 (none : Option Piece)) = [56] from rfl]

/-- A byte of a joined placement string is a slash or a byte of one of
the rows. -/
theorem mem_join_slash :
    ∀ (rows : List (List Nat)) (b : Nat), b ∈ join_slash rows →
      b = 47 ∨ ∃ r ∈ rows, b ∈ r
  | [], _, hb => by cases hb
  | [r], b, hb => Or.inr ⟨r, List.mem_singleton_self r, hb⟩
  | r :: r2 :: rs, b, hb => by
    rw [show join_slash (r :: r2 :: rs) = r ++ 47 :: join_slash (r2 :: rs) from rfl]
      at hb
    rcases List.mem_append.mp hb with h | h
    · exact Or.inr ⟨r, List.mem_cons_self r _, h⟩
    · rcases List.mem_cons.mp h with rfl | h
      · exact Or.inl rfl
      · rcases mem_join_slash (r2 :: rs) b h with h47 | ⟨r', hr', hb'⟩
        · exact Or.inl h47
        · exact Or.inr ⟨r', List.mem_cons_of_mem r hr', hb'⟩

/-- No byte of a starting placement row is a slash or a space. -/
theorem start_row_bytes (K : List Nat) (hall : ∀ k ∈ K, 2 ≤ k ∧ k ≤ 6) :
    ∀ r ∈ [K.map fun k => piece_fen_byte ((false : Color), k),
        List.replicate 8 112, [56], [56], [56], [56], List.replicate 8 80,
        K.map fun k => piece_fen_byte ((true : Color), k)],
      ∀ b ∈ r, b ≠ 47 ∧ b ≠ 32 := by
  intro r hrr
  simp only [List.mem_cons, List.mem_singleton, List.not_mem_nil, or_false] at hrr
  rcases hrr with rfl | rfl | rfl | rfl | rfl | rfl | rfl | rfl <;> intro b hb
  · obtain ⟨k, hk, rfl⟩ := List.mem_map.mp hb
    obtain ⟨hk2, hk6⟩ := hall k hk
    exact ⟨(piece_byte_black hk2 hk6).2.2.2.1, (piece_byte_black hk2 hk6).2.2.2.2⟩
  · rw [List.eq_of_mem_replicate hb]
    exact ⟨by decide, by decide⟩
  · rw [List.mem_singleton] at hb
    rw [hb]
    exact ⟨by decide, by decide⟩
  · rw [List.mem_singleton] at hb
    rw [hb]
    exact ⟨by decide, by decide⟩
  · rw [List.mem_singleton] at hb
    rw [hb]
    exact ⟨by decide, by decide⟩
  · rw [List.mem_singleton] at hb
    rw [hb]
    exact ⟨by decide, by decide⟩
  · rw [List.eq_of_mem_replicate hb]
    exact ⟨by decide, by decide⟩
  · obtain ⟨k, hk, rfl⟩ := List.mem_map.mp hb
    obtain ⟨hk2, hk6⟩ := hall k hk
    exact ⟨(piece_byte_white hk2 hk6).2.2.2.1, (piece_byte_white hk2 hk6).2.2.2.2⟩

/-- Parsing a starting position's placement field recovers its board
squares exactly. -/
theorem parse_placement_start (K : List Nat) (hlen : K.length = 8)
    (hall : ∀ k ∈ K, 2 ≤ k ∧ k ≤ 6) :
    parse_placement (placement_fen (start_of K)) = some (start_of K).board := by
  rw [placement_fen_start K hlen]
  unfold parse_placement
  rw [split_on_join_slash _ (by simp)
    (fun r hr b hb => (start_row_bytes K hall r hr b hb).1)]
  rw [if_pos (by simp)]
  have hW : parse_rank (K.map fun k => piece_fen_byte ((true : Color), k)) =
      some (K.map fun k => some ((true : Color), k)) := parse_rank_map true K hall hlen
  have hB : parse_rank (K.map fun k => piece_fen_byte ((false : Color), k)) =
      some (K.map fun k => some ((false : Color), k)) := parse_rank_map false K hall hlen
  have hwp : parse_rank (List.replicate 8 80) =
      some (List.replicate 8 (some ((true : Color), 1))) := rfl
  have hbp : parse_rank (List.replicate 8 112) =
      some (List.replicate 8 (some ((false : Color), 1))) := rfl
  have hee : parse_rank [56] = some (List.replicate 8 (none : Option Piece)) := rfl
  simp only [List.reverse_cons, List.reverse_nil, List.nil_append, List.cons_append,
    List.append_nil, List.foldl_cons, List.foldl_nil, hW, hB, hwp, hbp, hee]
  simp [start_of,
    show (List.replicate 32 (none : Option Piece)) =
      List.replicate 8 none ++ (List.replicate 8 none ++
        (List.replicate 8 none ++ List.replicate 8 none)) from rfl,
    List.append_assoc]

/-- Unpacking `good_backrank`: eight kinds in knight..king, one king
file, two rook files, king strictly between the rooks. -/
theorem good_backrank_spec {K : List Nat} (hg : good_backrank K = true) :
    K.length = 8 ∧ (∀ k ∈ K, 2 ≤ k ∧ k ≤ 6) ∧
      ∃ kf r1 r2, king_files K = [kf] ∧ rook_files K = [r1, r2] ∧
        r1 < kf ∧ kf < r2 := by
  unfold good_backrank at hg
  simp only [Bool.and_eq_true] at hg
  obtain ⟨⟨hlen, hall⟩, hm⟩ := hg
  refine ⟨by simpa using hlen, ?_, ?_⟩
  · intro k hk
    have h := List.all_eq_true.mp hall k hk
    simp only [Bool.and_eq_true, decide_eq_true_eq] at h
    exact h
  · cases hkf : king_files K with
    | nil => rw [hkf] at hm; simp at hm
    | cons a t =>
      cases t with
      | cons a2 t2 => rw [hkf] at hm; simp at hm
      | nil =>
        cases hrf : rook_files K with
        | nil => rw [hkf, hrf] at hm; simp at hm
        | cons b tb =>
          cases tb with
          | nil => rw [hkf, hrf] at hm; simp at hm
          | cons c tc =>
            cases tc with
            | cons d td => rw [hkf, hrf] at hm; simp at hm
            | nil =>
              rw [hkf, hrf] at hm
              simp only [Bool.and_eq_true, decide_eq_true_eq] at hm
              exact ⟨a, b, c, rfl, rfl, hm.1, hm.2⟩

/-- `Board(fen=Board.fen())` recovers the position exactly, for every
starting position with a well-formed backrank. -/
theorem fen_roundtrip_of_good (K : List Nat) (hg : good_backrank K = true) :
    board_from_fen ((start_of K).fen) = some (start_of K) := by
  obtain ⟨hlen, hall, kf, r1, r2, hk, hr, h1, h2⟩ := good_backrank_spec hg
  have hpl32 : ∀ b ∈ placement_fen (start_of K), b ≠ 32 := by
    intro b hb
    rw [placement_fen_start K hlen] at hb
    rcases mem_join_slash _ b hb with rfl | ⟨r, hrr, hbr⟩
    · decide
    · exact (start_row_bytes K hall r hrr b hbr).2
  have hfen : (start_of K).fen = placement_fen (start_of K) ++
      32 :: 119 :: 32 :: 75 :: 81 :: 107 :: 113 :: 32 :: 45 :: 32 :: 48 :: 32 :: [49] := by
    unfold Position.fen
    rw [castling_fen_start K hlen kf r1 r2 hk hr h1 h2,
      show (if (start_of K).turn then 119 else 98) = 119 from rfl,
      show ep_fen (start_of K) = [45] from rfl,
      show (start_of K).halfmove_clock = 0 from rfl,
      show (start_of K).fullmove_number = 1 from rfl,
      show nat_bytes 0 = [48] from rfl,
      show nat_bytes 1 = [49] from rfl]
    simp
  have hsplit : split_on 32 ((start_of K).fen) =
      [placement_fen (start_of K), [119], [75, 81, 107, 113], [45], [48], [49]] := by
    rw [hfen, split_on_append _ hpl32]
    congr 1
  unfold board_from_fen
  rw [hsplit]
  simp only [parse_placement_start K hlen hall,
    parse_castling_start K hlen kf r1 r2 hk hr h1 h2]
  norm_num [start_of, show parse_nat [48] = some 0 from rfl,
    show parse_nat [49] = some 1 from rfl]

/-- The standard backrank arrangement is well-formed. -/
theorem good_standard : good_backrank backrank_kinds = true := by decide

set_option maxHeartbeats 4000000 in
set_option maxRecDepth 8000 in
/-- Every Scharnagl backrank is well-formed, by enumeration. -/
theorem good_c960_all :
    ((List.range 960).all fun n => good_backrank (c960_backrank n)) = true := by
  decide

/-- Well-formedness of the backrank of any Chess960 starting number. -/
theorem good_c960 {n : Nat} (hn : n < 960) :
    good_backrank (c960_backrank n) = true :=
  List.all_eq_true.mp good_c960_all n (List.mem_range.mpr hn)

/-! ## The claims -/

/-- C1: whenever a token decodes to a move that is illegal on the
current board, `performMove` retries the token with a queen-promotion
suffix appended and applies the re-decoded move if it is legal; in
particular, on a board with a white pawn on e7 and White to move, the
token e7e8 behaves exactly like the explicit token e7e8q and the
applied move leaves a white queen on e8. -/
theorem claim_C1 :
    (∀ (st : AppState) (t : List Nat) (m m2 : Move),
        Move.from_uci t = some m →
        st.chessboard.is_legal m = false →
        Move.from_uci (t ++ [113]) = some m2 →
        st.chessboard.is_legal m2 = true →
        performMove st t = some (updateMoveOnboard st m2)) ∧
    (∀ st : AppState, st.chessboard = promoPosition →
        performMove st [101, 55, 101, 56] = performMove st [101, 55, 101, 56, 113] ∧
        performMove st [101, 55, 101, 56] =
          some (true, (updateMoveOnboard st ⟨52, 60, some 5⟩).2) ∧
        piece_at (updateMoveOnboard st ⟨52, 60, some 5⟩).2.chessboard 60 =
          some (true, 5)) := by
  constructor
  · intro st t m m2 hdec hill hdec2 hleg
    simp only [performMove, hdec, hill, hdec2, hleg]
    simp
  · intro st hst
    have h1 : Move.from_uci [101, 55, 101, 56] = some ⟨52, 60, none⟩ := by decide
    have h2 : Move.from_uci [101, 55, 101, 56, 113] = some ⟨52, 60, some 5⟩ := by decide
    have h3 : promoPosition.is_legal ⟨52, 60, none⟩ = false := by decide
    have h4 : promoPosition.is_legal ⟨52, 60, some 5⟩ = true := by decide
    have happ : [101, 55, 101, 56] ++ [113] = [101, 55, 101, 56, 113] := rfl
    refine ⟨?_, ?_, ?_⟩
    · simp only [performMove, h1, h2, hst, h3, h4, happ]
      simp
    · simp only [performMove, h1, h2, hst, h3, h4, happ, updateMoveOnboard]
      simp
    · simp only [updateMoveOnboard, hst]
      decide
/-- C1 witness: the promotion-fallback branch taken on the concrete
pawn-on-e7 state. -/
theorem claim_C1_witness :
    performMove promoState [101, 55, 101, 56] =
      some (updateMoveOnboard promoState ⟨52, 60, some 5⟩) :=
  claim_C1.1 promoState [101, 55, 101, 56] ⟨52, 60, none⟩ ⟨52, 60, some 5⟩
    (by decide) (by decide) (by decide) (by decide)

/-- C2 counterexample: on the host's initial state (where
`lastReceived` is still `None`), the illegal token e2e5 does not
produce a `False` rejection at all: `performMove` raises (`none`),
because the recovery path calls `chess.Move.from_uci(None)`. -/
theorem claim_C2_counterexample :
    performMove hostInitialState [101, 50, 101, 53] = none := by
  decide

/-- C2 (amended): when the decoded move and its queen-suffixed retry
are both illegal, `performMove` returns `False` and leaves the board
(hence its FEN) unchanged, PROVIDED the cached `lastReceived` bytes
decode as a move token; when `lastReceived` is `None` (as on the
starting state before any remote message) the rejection path instead
raises an uncaught exception.  In both cases the board is untouched. -/
theorem claim_C2 :
    (∀ (st : AppState) (t : List Nat) (m m2 : Move) (raw : List Nat) (lm : Move),
        Move.from_uci t = some m →
        st.chessboard.is_legal m = false →
        Move.from_uci (t ++ [113]) = some m2 →
        st.chessboard.is_legal m2 = false →
        st.lastReceived = some raw →
        Move.from_uci raw = some lm →
        performMove st t = some (false, { st with lastMove := some lm }) ∧
          ({ st with lastMove := some lm } : AppState).chessboard.fen =
            st.chessboard.fen) ∧
    (∀ st : AppState, st.chessboard = standard_position → st.lastReceived = none →
        performMove st [101, 50, 101, 53] = none) := by
  constructor
  · intro st t m m2 raw lm hdec hill hdec2 hill2 hlr hlm
    constructor
    · simp only [performMove, hdec, hill, hdec2, hill2, hlr, hlm]
      simp
    · rfl
  · intro st hst hlr
    have h1 : Move.from_uci [101, 50, 101, 53] = some ⟨12, 36, none⟩ := by decide
    have h2 : Move.from_uci [101, 50, 101, 53, 113] = some ⟨12, 36, some 5⟩ := by decide
    have h3 : standard_position.is_legal ⟨12, 36, none⟩ = false := by decide
    have h4 : standard_position.is_legal ⟨12, 36, some 5⟩ = false := by decide
    have happ : [101, 50, 101, 53] ++ [113] = [101, 50, 101, 53, 113] := rfl
    simp only [performMove, h1, h2, hst, h3, h4, happ, hlr]
    simp
/-- C2 witness: the amended rejection on the starting board once a
remote token has been cached. -/
theorem claim_C2_witness :
    performMove { hostInitialState with lastReceived := some [101, 55, 101, 53] }
        [101, 50, 101, 53] =
      some (false,
        { hostInitialState with lastReceived := some [101, 55, 101, 53],
                                lastMove := some ⟨52, 36, none⟩ }) ∧
    ({ hostInitialState with lastReceived := some [101, 55, 101, 53],
                             lastMove := some ⟨52, 36, none⟩ } : AppState).chessboard.fen =
      ({ hostInitialState with
          lastReceived := some [101, 55, 101, 53] } : AppState).chessboard.fen :=
  claim_C2.1 { hostInitialState with lastReceived := some [101, 55, 101, 53] }
    [101, 50, 101, 53] ⟨12, 36, none⟩ ⟨12, 36, some 5⟩ [101, 55, 101, 53]
    ⟨52, 36, none⟩ (by decide) (by decide) (by decide) (by decide) rfl (by decide)

/-- C3 counterexample: `performMove` itself has no turn guard: called
on a state in `AwaitingRemoteMove` (`isMyMove = False`) with the legal
local move e2e4, it applies the move and mutates the board instead of
returning a `NotYourTurn` rejection. -/
theorem claim_C3_counterexample :
    performMove { hostInitialState with isMyMove := false } [101, 50, 101, 52] =
      some (updateMoveOnboard { hostInitialState with isMyMove := false }
        ⟨12, 28, none⟩) ∧
    (updateMoveOnboard { hostInitialState with isMyMove := false }
        ⟨12, 28, none⟩).2.chessboard ≠ hostInitialState.chessboard := by
  constructor
  · decide
  · decide

/-- C3 (amended): the turn gate lives only in the callers, not in
`performMove`: `mousePressEvent` ignores clicks when it is not the
local side's turn, `_socketReader` feeds a message to `performMove`
only when it is the remote side's turn, and `performMove` itself never
reads or writes the turn-ownership flag (so a caller that bypassed the
gate would mutate the board out of turn, as the counterexample
shows). -/
theorem claim_C3 :
    (∀ (st : AppState) (uci : List Nat), st.isMyMove = false →
        localMoveStep st uci = some st) ∧
    (∀ (st : AppState) (data : List Nat), st.isMyMove = true →
        socketReaderStep st data = some { st with lastReceived := some data }) ∧
    (∀ (st : AppState) (uci : List Nat) (b : Bool) (st2 : AppState),
        performMove st uci = some (b, st2) → st2.isMyMove = st.isMyMove) := by
  refine ⟨?_, ?_, ?_⟩
  · intro st uci h
    simp [localMoveStep, h]
  · intro st data h
    simp [socketReaderStep, h]
  · intro st uci b st2 h
    exact performMove_isMyMove h
/-- C3 witness: the caller-side gates and the flag preservation at
concrete inputs. -/
theorem claim_C3_witness :
    localMoveStep { hostInitialState with isMyMove := false } [101, 50, 101, 52] =
      some { hostInitialState with isMyMove := false } ∧
    socketReaderStep hostInitialState [101, 55, 101, 53] =
      some { hostInitialState with lastReceived := some [101, 55, 101, 53] } :=
  ⟨claim_C3.1 { hostInitialState with isMyMove := false } [101, 50, 101, 52] rfl,
   claim_C3.2.1 hostInitialState [101, 55, 101, 53] rfl⟩

/-- C4: turn ownership alternates exactly on success: a `True` result
of `performMove` makes the local handler clear `isMyMove` and the
socket-reader handler set it, while a `False` result leaves the flag
exactly as it was in both handlers. -/
theorem claim_C4 :
    (∀ (st : AppState) (uci : List Nat) (stM : AppState), st.isMyMove = true →
        performMove st uci = some (true, stM) →
        localMoveStep st uci = some { stM with isMyMove := false }) ∧
    (∀ (st : AppState) (data : List Nat) (stM : AppState), st.isMyMove = false →
        performMove { st with lastReceived := some data } data = some (true, stM) →
        socketReaderStep st data = some { stM with isMyMove := true }) ∧
    (∀ (st : AppState) (uci : List Nat) (stM : AppState), st.isMyMove = true →
        performMove st uci = some (false, stM) →
        localMoveStep st uci = some stM ∧ stM.isMyMove = true) ∧
    (∀ (st : AppState) (data : List Nat) (stM : AppState), st.isMyMove = false →
        performMove { st with lastReceived := some data } data = some (false, stM) →
        socketReaderStep st data = some stM ∧ stM.isMyMove = false) := by
  refine ⟨?_, ?_, ?_, ?_⟩
  · intro st uci stM hmy hpm
    simp [localMoveStep, hmy, hpm]
  · intro st data stM hmy hpm
    rw [hmy] at hpm
    simp [socketReaderStep, hmy, hpm]
  · intro st uci stM hmy hpm
    refine ⟨by simp [localMoveStep, hmy, hpm], ?_⟩
    rw [performMove_isMyMove hpm, hmy]
  · intro st data stM hmy hpm
    rw [hmy] at hpm
    refine ⟨by simp [socketReaderStep, hmy, hpm], ?_⟩
    have := performMove_isMyMove hpm
    simpa [hmy] using this
/-- C4 witness: a successful local move on the host's initial state
flips the flag to `False`. -/
theorem claim_C4_witness :
    localMoveStep hostInitialState [101, 50, 101, 52] =
      some { (updateMoveOnboard hostInitialState ⟨12, 28, none⟩).2 with
              isMyMove := false } :=
  claim_C4.1 hostInitialState [101, 50, 101, 52]
    (updateMoveOnboard hostInitialState ⟨12, 28, none⟩).2 rfl (by decide)

/-- C5 counterexample: a malformed token does not yield a
`MalformedToken` rejection: `performMove` raises (the `ValueError`
from `chess.Move.from_uci` is uncaught), and in the reader loop the
exception kills the thread instead of being logged and dropped. -/
theorem claim_C5_counterexample :
    performMove hostInitialState [101, 50, 101] = none ∧
    socketReaderStep { hostInitialState with isMyMove := false } [101, 50, 101] =
      none := by
  constructor
  · decide
  · decide

/-- C5 (amended): on every token that fails to decode, `performMove`
raises instead of returning a rejection value (board, turn flag and
last-move record are left as they were, no rejection result is
produced), and a remote-origin malformed token kills the
synchronization loop. -/
theorem claim_C5 :
    ∀ (st : AppState) (t : List Nat), Move.from_uci t = none →
      performMove st t = none ∧
      (st.isMyMove = false → socketReaderStep st t = none) := by
  intro st t h
  constructor
  · simp only [performMove, h]
  · intro hmy
    simp [socketReaderStep, hmy, performMove, h]
/-- C5 witness: the decode failure on the two-byte token zz. -/
theorem claim_C5_witness :
    performMove hostInitialState [122, 122] = none ∧
    (hostInitialState.isMyMove = false →
      socketReaderStep hostInitialState [122, 122] = none) :=
  claim_C5 hostInitialState [122, 122] (by decide)

/-- C6: when an applied move leaves the opponent checkmated, the
popup notification (the model of the GameOver transition and of the
Checkmate(winner) notification) names as winner the color that just
moved — the side NOT to move next, since `push` always flips the turn
and the code picks the text by the post-move `Board.turn`; replaying
the Fool's Mate sequence f2f3, e7e5, g2g4, d8h4 from the host's
initial state succeeds and ends with the Checkmate-Black-wins popup on
a checkmated board. -/
theorem claim_C6 :
    (∀ (st : AppState) (m : Move), st.chessboard.is_legal m = true →
        (st.chessboard.push m).is_checkmate = true →
        (updateMoveOnboard st m).2.popup =
          some (if st.chessboard.turn then whiteWinsText else blackWinsText)) ∧
    (replay hostInitialState foolsMateTokens = some foolsFinal ∧
      foolsFinal.popup = some blackWinsText ∧
      foolsFinal.chessboard.is_checkmate = true) := by
  constructor
  · intro st m _ hmate
    simp only [updateMoveOnboard, hmate]
    rw [push_turn]
    cases st.chessboard.turn <;> simp
  · refine ⟨by rfl, by decide, by decide⟩
/-- C6 witness: the general winner rule applied to a concrete mate in
one (rook a7a8 against the bare king on h8): White moved, so the
popup says White wins. -/
theorem claim_C6_witness :
    (updateMoveOnboard mateInOneState ⟨48, 56, none⟩).2.popup =
      some (if mateInOneState.chessboard.turn then whiteWinsText else blackWinsText) :=
  claim_C6.1 mateInOneState ⟨48, 56, none⟩ (by decide) (by decide)

/-- C7 counterexample: a chunk received while `isMyMove` is `True` is
NOT fed to `performMove`: the reader loop merely caches it in
`lastReceived` and the board is left untouched, even though the very
same `performMove` call would have succeeded and changed the board. -/
theorem claim_C7_counterexample :
    socketReaderStep hostInitialState [101, 50, 101, 52] =
      some { hostInitialState with lastReceived := some [101, 50, 101, 52] } ∧
    performMove { hostInitialState with lastReceived := some [101, 50, 101, 52] }
        [101, 50, 101, 52] =
      some (updateMoveOnboard
        { hostInitialState with lastReceived := some [101, 50, 101, 52] }
        ⟨12, 28, none⟩) ∧
    (updateMoveOnboard
        { hostInitialState with lastReceived := some [101, 50, 101, 52] }
        ⟨12, 28, none⟩).2.chessboard ≠ hostInitialState.chessboard := by
  refine ⟨by decide, by decide, by decide⟩

/-- C7 (amended): each received chunk is first cached in
`lastReceived`; it is handed to `performMove` only when `isMyMove` is
`False` (messages arriving during the local turn are dropped), and the
rendering collaborator is signalled (the update counter grows) exactly
when a move is applied, not on every result. -/
theorem claim_C7 :
    ∀ (st : AppState) (data : List Nat),
      (st.isMyMove = true →
        socketReaderStep st data = some { st with lastReceived := some data }) ∧
      (st.isMyMove = false →
        socketReaderStep st data =
          match performMove { st with lastReceived := some data } data with
          | none => none
          | some (true, st2) => some { st2 with isMyMove := true }
          | some (false, st2) => some st2) ∧
      (∀ (b : Bool) (st2 : AppState), performMove st data = some (b, st2) →
        st2.updates = st.updates + if b then 1 else 0) := by
  intro st data
  refine ⟨?_, ?_, ?_⟩
  · intro h
    simp [socketReaderStep, h]
  · intro h
    simp only [socketReaderStep, h]
    simp
  · intro b st2 h
    exact performMove_updates h
/-- C7 witness: the drop-while-my-turn branch and the
refresh-on-success accounting at concrete inputs. -/
theorem claim_C7_witness :
    socketReaderStep hostInitialState [101, 55, 101, 53] =
      some { hostInitialState with lastReceived := some [101, 55, 101, 53] } :=
  (claim_C7 hostInitialState [101, 55, 101, 53]).1 rfl

/-- C8: session bootstrap preserves the position exactly: for the
host's freshly constructed board (the standard start, or any of the
960 Chess960 starts), constructing the client board from the host's
FEN succeeds and yields a board whose FEN is byte-identical to the
host's, before any move is played. -/
theorem claim_C8 (c960 : Bool) (n : Nat) (hn : n < 960) :
    ∃ client : Position,
      board_from_fen ((hostBoard c960 n).fen) = some client ∧
      client.fen = (hostBoard c960 n).fen := by
  refine ⟨hostBoard c960 n, ?_, rfl⟩
  cases c960 with
  | false => exact fen_roundtrip_of_good backrank_kinds good_standard
  | true => exact fen_roundtrip_of_good (c960_backrank n) (good_c960 hn)
/-- C8 witness: the bootstrap round trip on the Chess960 start number
518 (the standard arrangement) in 960 mode. -/
theorem claim_C8_witness :
    518 < 960 ∧
    ∃ client : Position,
      board_from_fen ((hostBoard true 518).fen) = some client ∧
      client.fen = (hostBoard true 518).fen :=
  ⟨by decide, claim_C8 true 518 (by decide)⟩

/-- C9: the move codec round-trips: decoding the textual rendering of
any Move that is legal on some board yields that Move back, with or
without a promotion piece (legality bounds the squares to the board
and the promotion field to a generated piece kind). -/
theorem claim_C9 :
    ∀ (p : Position) (m : Move), p.is_legal m = true →
      Move.from_uci m.uci = some m := by
  intro p m h
  have hp : p.is_pseudo_legal m = true := by
    unfold Position.is_legal at h
    simp only [Bool.and_eq_true] at h
    exact h.1
  obtain ⟨hf, ht⟩ := pseudo_legal_bounds hp
  exact from_uci_uci hf ht (pseudo_legal_promo hp)
/-- C9 witness: the round trip on the legal opening move e2e4 and on
the legal promotion e7e8q. -/
theorem claim_C9_witness :
    Move.from_uci (Move.uci ⟨12, 28, none⟩) = some ⟨12, 28, none⟩ ∧
    Move.from_uci (Move.uci ⟨52, 60, some 5⟩) = some ⟨52, 60, some 5⟩ :=
  ⟨claim_C9 standard_position ⟨12, 28, none⟩ (by decide),
   claim_C9 promoPosition ⟨52, 60, some 5⟩ (by decide)⟩

/-- C10: the illegal-move recovery branch re-decodes `lastReceived`,
which is `None` until the first socket read; so an illegal move
attempted before any remote message (with the queen-suffix retry also
illegal) makes `performMove` raise a `TypeError` instead of returning
a result: `performMove` is not total on its stated input domain. -/
theorem claim_C10 :
    ∀ (st : AppState) (t : List Nat) (m m2 : Move),
      st.lastReceived = none →
      Move.from_uci t = some m →
      st.chessboard.is_legal m = false →
      Move.from_uci (t ++ [113]) = some m2 →
      st.chessboard.is_legal m2 = false →
      performMove st t = none := by
  intro st t m m2 hlr h1 h2 h3 h4
  simp only [performMove, h1, h2, h3, h4, hlr]
  simp
/-- C10 witness: the host attempting the illegal a2a5 before anything
was received. -/
theorem claim_C10_witness :
    performMove hostInitialState [97, 50, 97, 53] = none :=
  claim_C10 hostInitialState [97, 50, 97, 53] ⟨8, 32, none⟩ ⟨8, 32, some 5⟩
    rfl (by decide) (by decide) (by decide) (by decide)

end TdarkChess
